import Mathlib

/-
  Verification development for the `inject` dependency-injection container.

  Shallow embedding of the repository's Go sources:
    - `definition_storage.go`  (definition registry: add / get / all)
    - `container.go`           (New, compile pipeline, apply, Populate)
    - the provider wrapper file (newFuncProvider, providerWrapper.args)
  Go maps are modelled as association lists, heap pointers to `definition`
  objects as indices into an arena held by the storage, `reflect` instances
  as natural-number tokens, and Go errors as strings.  A Go function that can
  fail returns `Res`; a run-time panic is the `panicked` outcome.
-/

set_option autoImplicit false

namespace Inject

/-- Model of a Go `reflect.Type`: an identity together with the one fact the
container ever asks of a type, whether it implements the `error` interface. -/
structure TypeRep where
  tid : Nat
  isErr : Bool
deriving DecidableEq, Repr

/-- Model of `key` from the source: a bindable type identifier, optionally qualified by
a name (`key{typ: ..., name: ...}`; a missing name is the zero value `""`). -/
structure key where
  typ : TypeRep
  name : String := ""
deriving DecidableEq, Repr

/-- Rendering of a key used in error messages (`%s` on a key). The precise
text is immaterial to the claims; it only needs to be a function of the key. -/
def keyStr (k : key) : String :=
  toString k.typ.tid ++ (if k.name = "" then "" else "(" ++ k.name ++ ")")

/-- Outcome of a Go call: normal value, returned error, or run-time panic. -/
inductive Res (α : Type) where
  | ok : α → Res α
  | fail : String → Res α
  | panicked : String → Res α
deriving Repr

def Res.isOk {α : Type} : Res α → Bool
  | .ok _ => true
  | _ => false

def Res.isFail {α : Type} : Res α → Bool
  | .fail _ => true
  | _ => false

/-- Model of `errors.Wrap(err, msg)` for a non-nil cause: message `msg ++ ": " ++ err`.
(`errors.WithStack` and `errors.Wrapf` only decorate; stack traces are not
modelled, format verbs are applied to the shown arguments.) -/
def wrapErr (msg e : String) : String := msg ++ ": " ++ e

/-- Association-list model of a Go `map[key]V`: lookup of the first binding. -/
def lookupA {α : Type} : List (key × α) → key → Option α
  | [], _ => none
  | (k0, v) :: rest, k => if k0 = k then some v else lookupA rest k

/-- Association-list model of Go map assignment `m[k] = v`. -/
def insertA {α : Type} : List (key × α) → key → α → List (key × α)
  | [], k, v => [(k, v)]
  | (k0, v0) :: rest, k, v =>
      if k0 = k then (k, v) :: rest else (k0, v0) :: insertA rest k v

/-- Model of a Go function value handed to the container as a provider
constructor: its reflected signature (input types, output types) plus its
behaviour, mapping argument instances to the first result and — when the
signature declares a second, error result — to that error (`none` models a
nil error interface).  Instances are modelled as `Nat` tokens. -/
structure funcValue where
  ins : List TypeRep
  outs : List TypeRep
  fn : List Nat → Nat × Option String

/-- providerType from the provider wrapper source file. -/
inductive providerType where
  | func
  | struct
deriving DecidableEq, Repr

def ErrIncorrectProviderType : String :=
  "value must be a function with value and optional error as result"

def errIncorrectModifierSignature : String :=
  "modifier must be a function with optional error as result"

/-- providerWrapper from the provider wrapper source file. -/
structure providerWrapper where
  providerType : providerType
  providerValue : funcValue
  resultType : TypeRep

def dfltTypeRep : TypeRep := ⟨0, false⟩

/-- The function `newFuncProvider` from the provider wrapper source file: validate the
constructor's output arity (1 or 2, and if 2 the second output must implement
`error`), then record the first output as the result type.  The constructor
is never invoked. -/
def newFuncProvider (provider : funcValue) : Except String providerWrapper :=
  if provider.outs.length ≤ 0 ∨ provider.outs.length > 2 then
    .error ErrIncorrectProviderType
  else if provider.outs.length = 2 ∧ ((provider.outs.getD 1 dfltTypeRep).isErr = false) then
    .error ErrIncorrectProviderType
  else
    .ok { providerType := .func,
          providerValue := provider,
          resultType := provider.outs.getD 0 dfltTypeRep }

/-- The method `providerWrapper.args` from the provider wrapper source file: for a func
provider, the positional input types, each as a key with no name qualifier. -/
def providerWrapper.args (w : providerWrapper) : List key :=
  match w.providerType with
  | .func => w.providerValue.ins.map (fun t => { typ := t })
  | .struct => []

/-- Graph-traversal marks from `container.go` (`visitMark*` constants). -/
def visitMarkUnmarked : Nat := 0
def visitMarkTemporary : Nat := 1
def visitMarkPermanent : Nat := 2

/-- The compiled unit for one binding (`definition`, from the repository file
that is missing from the sources; its shape is fixed by spec §3 and by every
field access in `container.go` / `definition_storage.go`):
identifier, declared capability identifiers, provider wrapper, incoming and
outgoing edges (as arena indices), traversal mark, memoized instance.
`calls` is ghost instrumentation counting how many times the underlying
constructor has been invoked (one increment per modelled `reflect` Call);
it influences nothing. -/
structure definition where
  key : Inject.key
  provider : providerWrapper
  implements : List Inject.key
  inp : List Nat := []
  out : List Nat := []
  visited : Nat := visitMarkUnmarked
  inst : Option Nat := none
  calls : Nat := 0

def dfltFuncValue : funcValue := ⟨[], [], fun _ => (0, none)⟩

def dfltDefinition : definition :=
  { key := { typ := dfltTypeRep },
    provider := { providerType := .func, providerValue := dfltFuncValue,
                  resultType := dfltTypeRep },
    implements := [] }

/-- The registry `definitions` from `definition_storage.go`.  The Go struct holds
`keys []key`, `definitions map[key]*definition`, `implementations
map[key][]*definition`; pointers become indices into the arena `defs`
(the i-th successfully added definition lives at index i). -/
structure definitions where
  keys : List key
  defs : List definition
  defmap : List (key × Nat)
  impls : List (key × List Nat)

def emptyStorage : definitions := ⟨[], [], [], []⟩

/-- Dereference a definition pointer (arena index). An out-of-range index
models a nil pointer; it never arises along verified paths. -/
def getDef (s : definitions) (i : Nat) : definition :=
  s.defs.getD i dfltDefinition

/-- Mutate the definition object at index `i`. -/
def updDef (s : definitions) (i : Nat) (f : definition → definition) : definitions :=
  { s with defs := s.defs.set i (f (getDef s i)) }

/-- The method `definitions.add` from `definition_storage.go`: reject an already-bound
exact identifier, else append to `keys`, bind the exact identifier in the map,
and append the definition to the capability list of each key it implements. -/
def definitions.add (s : definitions) (d : definition) : Except String definitions :=
  if (lookupA s.defmap d.key).isSome then
    .error (keyStr d.key ++ " already provided")
  else
    let idx := s.defs.length
    let s1 : definitions :=
      { s with keys := s.keys ++ [d.key],
               defs := s.defs ++ [d],
               defmap := insertA s.defmap d.key idx }
    .ok { s1 with
          impls := d.implements.foldl
            (fun m k => insertA m k ((lookupA m k).getD [] ++ [idx])) s1.impls }

/-- The method `definitions.get` from `definition_storage.go`: exact lookup first, then
the first claimant of the capability, else a "not provided" error. -/
def definitions.get (s : definitions) (k : key) : Except String Nat :=
  match lookupA s.defmap k with
  | some i => .ok i
  | none =>
      match lookupA s.impls k with
      | some (i :: _) => .ok i
      | _ => .error ("type " ++ keyStr k ++ " not provided")

/-- The method `definitions.all` from `definition_storage.go`: the definitions in
registration (`keys`) order.  A key absent from the map would be a nil
pointer in Go; the out-of-range sentinel plays that role here. -/
def definitions.all (s : definitions) : List Nat :=
  s.keys.map (fun k => (lookupA s.defmap k).getD s.defs.length)

/-- The struct `providerOptions` from `container.go`: raw constructor (`none` models a
nil interface), optional name, declared capabilities. -/
structure providerOptions where
  provider : Option funcValue
  name : String := ""
  implements : List TypeRep := []

/-- Model of a Go modifier value: whether it is a function, its reflected
signature, and its behaviour (`none` models returning a nil error
interface).  A modifier output is only ever consumed as an error value. -/
structure modValue where
  isFunc : Bool
  ins : List TypeRep
  outs : List TypeRep
  fn : List Nat → Option String

/-- The struct `modifierOptions` from `container.go` (`none` models a nil modifier). -/
structure modifierOptions where
  modifier : Option modValue

/-- Modelled from the spec: `createDefinition` (its source file is missing
from the repository snapshot; spec §4.1 and §3 fix it).  It wraps the
constructor (§4.1), takes the wrapper's result type plus the registration's
name as the definition identifier, and converts each declared capability into
a key with no name qualifier (spec §3 "Type Identifier", glossary
"Capability").  Fresh definitions carry empty edge lists, an unmarked
traversal state and no memoized instance (spec §3 "Definition"). -/
def createDefinition (po : providerOptions) : Except String definition :=
  match po.provider with
  | none => .error ErrIncorrectProviderType
  | some pv =>
      match newFuncProvider pv with
      | .error e => .error e
      | .ok w =>
          .ok { key := { typ := w.resultType, name := po.name },
                provider := w,
                implements := po.implements.map (fun t => { typ := t }) }

/-- Error message used when the fuel of a modelled recursive routine runs
out; it models non-termination (spec §5: an undetected cycle blocks forever)
and is proved unreachable wherever the claims need it. -/
def outOfFuel : String := "modelled non-termination"

mutual

/-- Modelled from the spec: `definition.init` (its source file is missing;
spec §4.4 fixes it).  A memoized instance is returned as-is; otherwise the
incoming argument definitions are resolved recursively in order, the
underlying constructor is invoked with them, a declared non-empty failure
output fails the instantiation annotated with the definition's identifier,
and otherwise the result is memoized and returned.  The `fuel` bound models
the unbounded recursion of the source (spec §5). -/
def initDef : Nat → definitions → Nat → Res (Nat × definitions)
  | 0, _, _ => .fail outOfFuel
  | Nat.succ fuel, s, i =>
      let d := getDef s i
      match d.inst with
      | some v => .ok (v, s)
      | none =>
          match initArgs fuel s d.inp with
          | .fail e => .fail e
          | .panicked m => .panicked m
          | .ok (args, s1) =>
              let r := d.provider.providerValue.fn args
              let s2 := updDef s1 i (fun d0 => { d0 with calls := d0.calls + 1 })
              if d.provider.providerValue.outs.length = 2 ∧ r.2.isSome then
                .fail (wrapErr (keyStr d.key) (r.2.getD ""))
              else
                .ok (r.1, updDef s2 i (fun d0 => { d0 with inst := some r.1 }))

/-- Resolve a list of argument definitions in positional order (§4.4). -/
def initArgs : Nat → definitions → List Nat → Res (List Nat × definitions)
  | _, s, [] => .ok ([], s)
  | fuel, s, j :: rest =>
      match initDef fuel s j with
      | .fail e => .fail e
      | .panicked m => .panicked m
      | .ok (v, s1) =>
          match initArgs fuel s1 rest with
          | .fail e => .fail e
          | .panicked m => .panicked m
          | .ok (vs, s2) => .ok (v :: vs, s2)

end

def cycleDetectedMsg : String := "cycle detected"

/-- Traverse a list of nodes with the given visitor in order, aborting on
the first error (the loop body of the spec's depth-first traversal). -/
def visitFold (f : definitions → Nat → Res definitions) :
    definitions → List Nat → Res definitions
  | s, [] => .ok s
  | s, j :: rest =>
      match f s j with
      | .fail e => .fail e
      | .panicked m => .panicked m
      | .ok s1 => visitFold f s1 rest

/-- Modelled from the spec: `definition.visit` (its source file is missing;
spec §4.3 fixes it).  Depth-first traversal over the `out` adjacency with the
three-state mark: a `done` node is skipped, re-entering an `in-progress`
node reports a cycle, otherwise the node is marked in-progress, its outgoing
edges are traversed, and on exit it is marked done.  `fuel` bounds the
recursion depth for the embedding; it is proved sufficient. -/
def visitDef : Nat → definitions → Nat → Res definitions
  | 0, _, _ => .fail outOfFuel
  | Nat.succ fuel, s, i =>
      if (getDef s i).visited = visitMarkPermanent then .ok s
      else if (getDef s i).visited = visitMarkTemporary then .fail cycleDetectedMsg
      else
        let s1 := updDef s i (fun d => { d with visited := visitMarkTemporary })
        match visitFold (visitDef fuel) s1 ((getDef s1 i).out) with
        | .fail e => .fail e
        | .panicked m => .panicked m
        | .ok s2 => .ok (updDef s2 i (fun d => { d with visited := visitMarkPermanent }))

/-- The inner loop of `compile`'s wiring stage (`container.go`): for each
argument key of definition `i`'s provider, resolve it via storage `get`,
append the resolved definition to `i`'s incoming list and `i` to the resolved
definition's outgoing list; abort at the first unresolved key. -/
def connectArgs (s : definitions) (i : Nat) : List key → Res definitions
  | [] => .ok s
  | k :: rest =>
      match s.get k with
      | .error e => .fail e
      | .ok r =>
          let s1 := updDef s i (fun d => { d with inp := d.inp ++ [r] })
          let s2 := updDef s1 r (fun d => { d with out := d.out ++ [i] })
          connectArgs s2 i rest

/-- The wiring stage of `compile` over the definitions in storage order. -/
def connectList : definitions → List Nat → Res definitions
  | s, [] => .ok s
  | s, i :: rest =>
      match connectArgs s i ((getDef s i).provider.args) with
      | .fail e => .fail e
      | .panicked m => .panicked m
      | .ok s1 => connectList s1 rest

def connectAll (s : definitions) : Res definitions :=
  connectList s s.all

/-- The cycle-verification stage of `compile`: depth-first visit from every
definition still unmarked, in storage order, wrapping a traversal error with
"detect cycle". -/
def verifyList : definitions → List Nat → Res definitions
  | s, [] => .ok s
  | s, i :: rest =>
      if (getDef s i).visited = visitMarkUnmarked then
        match visitDef (s.defs.length + 1) s i with
        | .fail e => .fail (wrapErr "detect cycle" e)
        | .panicked m => .panicked m
        | .ok s1 => verifyList s1 rest
      else verifyList s rest

def verifyAll (s : definitions) : Res definitions :=
  verifyList s s.all

/-- The provider-registration stage of `compile`: reject a nil provider,
create the definition (wrapping a creation error with "provide failed"),
add it to storage (wrapping a conflict with "could not add definition"). -/
def registerList : definitions → List providerOptions → Res definitions
  | s, [] => .ok s
  | s, po :: rest =>
      match po.provider with
      | none => .fail "could not provide nil"
      | some _ =>
          match createDefinition po with
          | .error e => .fail (wrapErr "provide failed" e)
          | .ok d =>
              match s.add d with
              | .error e => .fail (wrapErr "could not add definition" e)
              | .ok s1 => registerList s1 rest

/-- Argument resolution of `Container.apply` (`container.go`): for each input
type of the modifier, in order, resolve `key{typ}` via storage `get` and
instantiate the definition via `init`. -/
def applyArgs (s : definitions) : List TypeRep → Res (List Nat × definitions)
  | [] => .ok ([], s)
  | t :: rest =>
      match s.get { typ := t } with
      | .error e => .fail e
      | .ok i =>
          match initDef (s.defs.length + 1) s i with
          | .fail e => .fail (wrapErr (toString i) e)
          | .panicked m => .panicked m
          | .ok (v, s1) =>
              match applyArgs s1 rest with
              | .fail e => .fail e
              | .panicked m => .panicked m
              | .ok (vs, s2) => .ok (v :: vs, s2)

/-- The method `Container.apply` from `container.go`: reject a nil modifier, a non-func
modifier, output arity above 1, or a single output that does not implement
`error`; then resolve and instantiate the arguments, invoke the modifier,
and interpret a single result through
`errors.Wrap(result[0].Interface().(error), "apply error")`.  When the
returned error interface is nil, the type assertion `.(error)` panics — the
Go run-time fault is modelled by the `panicked` outcome. -/
def applyMod (s : definitions) (mo : modifierOptions) : Res definitions :=
  match mo.modifier with
  | none => .fail "nil modifier"
  | some m =>
      if m.isFunc = false then .fail errIncorrectModifierSignature
      else if m.outs.length > 1 then .fail errIncorrectModifierSignature
      else if m.outs.length = 1 ∧ (m.outs.getD 0 dfltTypeRep).isErr = false then
        .fail errIncorrectModifierSignature
      else
        match applyArgs s m.ins with
        | .fail e => .fail e
        | .panicked msg => .panicked msg
        | .ok (args, s1) =>
            let r := m.fn args
            if m.outs.length = 1 then
              match r with
              | some e => .fail (wrapErr "apply error" e)
              | none => .panicked "interface conversion: interface \x7b\x7d is nil, not error"
            else .ok s1

/-- The modifier stage of `compile`: apply each modifier in order; a failure
is returned unwrapped. -/
def applyList : definitions → List modifierOptions → Res definitions
  | s, [] => .ok s
  | s, mo :: rest =>
      match applyMod s mo with
      | .fail e => .fail e
      | .panicked m => .panicked m
      | .ok s1 => applyList s1 rest

/-- The struct `Container` from `container.go` (logger omitted: out of scope). -/
structure Container where
  providers : List providerOptions
  modifiers : List modifierOptions
  storage : definitions

/-- The method `Container.compile` from `container.go`: register providers, wire the
dependency edges, verify cycles, apply modifiers — in that order, aborting at
the first failure. -/
def Container.compile (c : Container) : Res definitions :=
  match registerList c.storage c.providers with
  | .fail e => .fail e
  | .panicked m => .panicked m
  | .ok s1 =>
      match connectAll s1 with
      | .fail e => .fail e
      | .panicked m => .panicked m
      | .ok s2 =>
          match verifyAll s2 with
          | .fail e => .fail e
          | .panicked m => .panicked m
          | .ok s3 => applyList s3 c.modifiers

/-- Modelled from the spec: the container `Option` surface is out of scope
(§1); it only hands the container the ordered provider and modifier
registration lists (§6).  One option either appends a provider registration
or a modifier registration. -/
inductive ContainerOption where
  | provideOpt (po : providerOptions)
  | modifierOpt (mo : modifierOptions)

def applyOption (c : Container) : ContainerOption → Container
  | .provideOpt po => { c with providers := c.providers ++ [po] }
  | .modifierOpt mo => { c with modifiers := c.modifiers ++ [mo] }

/-- The container assembled from the options, before compilation. -/
def initialContainer (options : List ContainerOption) : Container :=
  options.foldl applyOption { providers := [], modifiers := [], storage := emptyStorage }

/-- The constructor `New` from `container.go`: build the container from the options, compile
it, and either return the compiled container or a nil container with the
compile error wrapped as "could not compile container". -/
def New (options : List ContainerOption) : Res Container :=
  match (initialContainer options).compile with
  | .fail e => .fail (wrapErr "could not compile container" e)
  | .panicked m => .panicked m
  | .ok s => .ok { initialContainer options with storage := s }

/-- Modelled from the spec: `ProvideOption` values (out of scope, §1) are
opaque to `Populate`; only their presence is modelled. -/
structure ProvideOption where
  tag : Nat

/-- Model of the untyped `target` argument of `Populate`, by the cases
`reflect` distinguishes: an invalid value (untyped nil), a typed nil
pointer, a non-nil pointer to a value of some type, or a non-pointer value. -/
inductive PopulateTarget where
  | invalidValue
  | nilPtr (t : TypeRep)
  | ptr (t : TypeRep)
  | nonPtr (t : TypeRep)

/-- The method `Container.Populate` from `container.go`: an invalid value or nil
pointer fails with "could not populate nil"; otherwise `rvalue.Elem()` is
taken — which panics on a non-pointer value — the pointee type is resolved
against storage, the definition is instantiated (an instantiation error is
wrapped with the pointee type), and the instance is assigned through the
pointer (returned here together with the updated container storage).
The variadic `options` are never read. -/
def Populate (s : definitions) (target : PopulateTarget)
    (options : List ProvideOption) : Res (Nat × definitions) :=
  match target with
  | .invalidValue => .fail "could not populate nil"
  | .nilPtr _ => .fail "could not populate nil"
  | .nonPtr _ => .panicked "reflect: call of reflect.Value.Elem on non-pointer Value"
  | .ptr t =>
      match s.get { typ := t } with
      | .error e => .fail e
      | .ok i =>
          match initDef (s.defs.length + 1) s i with
          | .fail e => .fail (wrapErr (toString t.tid) e)
          | .panicked m => .panicked m
          | .ok (v, s1) => .ok (v, s1)

/-! ### Derived graph and well-formedness notions used in the claims -/

/-- Nonempty paths in a finite adjacency structure `E` (edge `i → j` when
`j ∈ E i`). -/
inductive PathE (E : Nat → List Nat) : Nat → Nat → Prop where
  | edge : ∀ {i j : Nat}, j ∈ E i → PathE E i j
  | cons : ∀ {i j k : Nat}, j ∈ E i → PathE E j k → PathE E i k

/-- The outgoing ("depends on me") adjacency of the wired graph. -/
def outE (s : definitions) (i : Nat) : List Nat := (getDef s i).out

/-- The incoming ("my arguments") adjacency of the wired graph. -/
def inpE (s : definitions) (i : Nat) : List Nat := (getDef s i).inp

/-- Reachability (reflexive or via a path). -/
def ReachE (E : Nat → List Nat) (i j : Nat) : Prop := i = j ∨ PathE E i j

/-- Every index a storage `get` can return is a valid arena index. -/
def mapsBounded (s : definitions) : Bool :=
  s.defmap.all (fun p => decide (p.2 < s.defs.length)) &&
    s.impls.all (fun p => p.2.all (fun i => decide (i < s.defs.length)))

/-- Registration-order iteration covers exactly the arena (spec §4.2 `all`). -/
def allIsRange (s : definitions) : Bool :=
  s.all = List.range s.defs.length

/-- All recorded outgoing edges stay inside the arena. -/
def outBounded (s : definitions) : Bool :=
  s.defs.all (fun d => d.out.all (fun i => decide (i < s.defs.length)))

/-- Every definition still carries the unmarked traversal state. -/
def allUnmarkedB (s : definitions) : Bool :=
  s.defs.all (fun d => d.visited == visitMarkUnmarked)

/-- The total result of a storage `get`, for stating wiring results
(meaningful whenever the corresponding `get` succeeds). -/
def resolveD (s : definitions) (k : key) : Nat :=
  match s.get k with
  | .ok r => r
  | .error _ => s.defs.length

/-- Registration of a list of definitions, folding `add` (the registration
stage of `compile` restricted to storage, used to state C1). -/
def addAll : definitions → List definition → Except String definitions
  | s, [] => .ok s
  | s, d :: rest =>
      match s.add d with
      | .error e => .error e
      | .ok s1 => addAll s1 rest

/-- Capability-claim indices: the arena indices (offset by `base`) that the
registration of `ds` appends to the capability list of `k`, in registration
order (one occurrence per time a definition declares `k`). -/
def claimIdx : Nat → List definition → key → List Nat
  | _, [], _ => []
  | base, d :: rest, k =>
      List.replicate (d.implements.count k) base ++ claimIdx (base + 1) rest k

/-! ### Association-list lemmas (the Go map model) -/

theorem lookupA_insertA_self {α : Type} (m : List (key × α)) (k : key) (v : α) :
    lookupA (insertA m k v) k = some v := by
  induction m with
  | nil => simp [insertA, lookupA]
  | cons p rest ih =>
      by_cases h : p.1 = k
      · simp [insertA, h, lookupA]
      · simp [insertA, h, lookupA, ih]

theorem lookupA_insertA_ne {α : Type} (m : List (key × α)) (k k' : key) (v : α)
    (h : k ≠ k') : lookupA (insertA m k v) k' = lookupA m k' := by
  induction m with
  | nil => simp [insertA, lookupA, h]
  | cons p rest ih =>
      by_cases hp : p.1 = k
      · simp [insertA, hp, lookupA, h]
      · by_cases hp' : p.1 = k'
        · simp [insertA, hp, lookupA, hp', Ne.symm h]
        · simp [insertA, hp, lookupA, hp', ih]

/-- Effect of the capability-registration fold of `add` on one capability
list: the definition's index is appended once per declaration of the key. -/
theorem lookupA_implsFold (l : List key) (m : List (key × List Nat)) (idx : Nat) (k : key) :
    (lookupA (l.foldl (fun m k0 => insertA m k0 ((lookupA m k0).getD [] ++ [idx])) m) k).getD [] =
      (lookupA m k).getD [] ++ List.replicate (l.count k) idx := by
  induction l generalizing m with
  | nil => simp
  | cons a l ih =>
      rw [List.foldl_cons, ih]
      by_cases hak : a = k
      · subst hak
        rw [lookupA_insertA_self, List.count_cons_self]
        simp [List.replicate_succ]
      · rw [lookupA_insertA_ne _ _ _ _ hak, List.count_cons_of_ne]
        exact fun h => hak h.symm

/-- The capability-registration fold never stores an empty claimant list. -/
theorem implsFold_nonempty (l : List key) (m : List (key × List Nat)) (idx : Nat)
    (hm : ∀ k v, lookupA m k = some v → v ≠ []) :
    ∀ k v, lookupA (l.foldl (fun m k0 => insertA m k0 ((lookupA m k0).getD [] ++ [idx])) m) k
      = some v → v ≠ [] := by
  induction l generalizing m with
  | nil => exact hm
  | cons a l ih =>
      rw [List.foldl_cons]
      refine ih _ ?_
      intro k v hv
      by_cases hak : a = k
      · subst hak
        rw [lookupA_insertA_self] at hv
        cases hv
        simp
      · rw [lookupA_insertA_ne _ _ _ _ hak] at hv
        exact hm k v hv

/-! ### Claim C2: add — conflict iff duplicate exact binding, effects -/

/-- C2.  `add` fails (with the duplicate-binding error) exactly when the
definition's exact identifier is already bound; the check precedes every
mutation, so on failure nothing is changed (the model returns no new state,
mirroring the check-then-act source).  On success the identifier is appended
to the ordered key list, the exact binding is installed at the next arena
index, no other exact binding changes, and the definition is appended to the
capability list of every capability it declares (once per declaration). -/
theorem add_conflict_iff_and_effects (s : definitions) (d : definition) :
    ((∃ e, s.add d = .error e) ↔ (lookupA s.defmap d.key).isSome = true) ∧
    (∀ e, s.add d = .error e → e = keyStr d.key ++ " already provided") ∧
    (∀ s', s.add d = .ok s' →
      lookupA s.defmap d.key = none ∧
      s'.keys = s.keys ++ [d.key] ∧
      s'.defs = s.defs ++ [d] ∧
      lookupA s'.defmap d.key = some s.defs.length ∧
      (∀ k, k ≠ d.key → lookupA s'.defmap k = lookupA s.defmap k) ∧
      (∀ k, (lookupA s'.impls k).getD [] =
        (lookupA s.impls k).getD [] ++
          List.replicate (d.implements.count k) s.defs.length)) := by
  by_cases hdup : (lookupA s.defmap d.key).isSome = true
  · refine ⟨⟨fun _ => hdup,
        fun _ => ⟨keyStr d.key ++ " already provided", by simp [definitions.add, hdup]⟩⟩,
      fun e he => ?_, fun s' hs' => ?_⟩
    · simp only [definitions.add, if_pos hdup] at he
      cases he
      rfl
    · simp only [definitions.add, if_pos hdup] at hs'
      exact absurd hs' (by simp)
  · have hnone : lookupA s.defmap d.key = none := by
      cases h : lookupA s.defmap d.key
      · rfl
      · exact absurd (by simp [h]) hdup
    refine ⟨⟨?_, fun h => absurd h hdup⟩, fun e he => ?_, fun s' hs' => ?_⟩
    · rintro ⟨e, he⟩
      simp only [definitions.add, if_neg hdup] at he
      exact absurd he (by simp)
    · simp only [definitions.add, if_neg hdup] at he
      exact absurd he (by simp)
    · simp only [definitions.add, if_neg hdup] at hs'
      cases hs'
      refine ⟨hnone, rfl, rfl, ?_, ?_, ?_⟩
      · exact lookupA_insertA_self _ _ _
      · intro k hk
        exact lookupA_insertA_ne _ _ _ _ (fun h => hk h.symm)
      · intro k
        exact lookupA_implsFold _ _ _ _

/-- A concrete definition used by witnesses: binds type 1, claims type 7. -/
def sampleDef1 : definition :=
  { key := { typ := ⟨1, false⟩ },
    provider := { providerType := .func, providerValue := dfltFuncValue,
                  resultType := ⟨1, false⟩ },
    implements := [{ typ := ⟨7, false⟩ }] }

/-- The storage produced by adding the sample definition to the empty one. -/
def sampleStorage : definitions :=
  { keys := [{ typ := ⟨1, false⟩ }],
    defs := [sampleDef1],
    defmap := [({ typ := ⟨1, false⟩ }, 0)],
    impls := [({ typ := ⟨7, false⟩ }, [0])] }

/-- C2 witness: adding a fresh definition to the empty storage succeeds and
has the stated effects. -/
theorem add_conflict_witness :
    emptyStorage.add sampleDef1 = .ok sampleStorage ∧
    sampleStorage.keys = [{ typ := ⟨1, false⟩ }] ∧
    lookupA sampleStorage.defmap { typ := ⟨1, false⟩ } = some 0 ∧
    (lookupA sampleStorage.impls { typ := ⟨7, false⟩ }).getD [] = [0] := by
  have h := (add_conflict_iff_and_effects emptyStorage sampleDef1).2.2
    sampleStorage rfl
  exact ⟨rfl, h.2.1.trans rfl, h.2.2.2.1,
    (h.2.2.2.2.2 { typ := ⟨7, false⟩ }).trans rfl⟩

/-! ### Claim C1: two-tier lookup, first-registered claimant wins -/

/-- Index of the first list element satisfying `p` (registration order). -/
def firstIdx (p : definition → Bool) : List definition → Option Nat
  | [] => none
  | d :: rest => if p d then some 0 else (firstIdx p rest).map (· + 1)

/-- Effects of `add` on a successful registration (shared helper). -/
theorem add_ok_char (s : definitions) (d : definition) (s' : definitions)
    (h : s.add d = .ok s') :
    lookupA s.defmap d.key = none ∧
    s'.defs = s.defs ++ [d] ∧
    lookupA s'.defmap d.key = some s.defs.length ∧
    (∀ k, k ≠ d.key → lookupA s'.defmap k = lookupA s.defmap k) ∧
    (∀ k, (lookupA s'.impls k).getD [] =
      (lookupA s.impls k).getD [] ++ List.replicate (d.implements.count k) s.defs.length) ∧
    ((∀ k v, lookupA s.impls k = some v → v ≠ []) →
      ∀ k v, lookupA s'.impls k = some v → v ≠ []) := by
  by_cases hdup : (lookupA s.defmap d.key).isSome = true
  · simp only [definitions.add, if_pos hdup] at h
    exact absurd h (by simp)
  · have hnone : lookupA s.defmap d.key = none := by
      cases hx : lookupA s.defmap d.key
      · rfl
      · exact absurd (by simp [hx]) hdup
    simp only [definitions.add, if_neg hdup] at h
    cases h
    refine ⟨hnone, rfl, lookupA_insertA_self _ _ _, ?_, ?_, ?_⟩
    · intro k hk
      exact lookupA_insertA_ne _ _ _ _ (fun hh => hk hh.symm)
    · intro k
      exact lookupA_implsFold _ _ _ _
    · intro hinv
      exact implsFold_nonempty _ _ _ hinv

/-- Cumulative effect of registering a list of definitions (shared helper):
the arena grows by the list; surviving exact bindings are preserved; a key
unbound before is bound to the first definition carrying it, offset by the
base index; each capability list grows by `claimIdx`; claimant lists stay
nonempty. -/
theorem addAll_char (ds : List definition) : ∀ (s0 s : definitions),
    addAll s0 ds = .ok s →
    s.defs = s0.defs ++ ds ∧
    (∀ k i, lookupA s0.defmap k = some i → lookupA s.defmap k = some i) ∧
    (∀ k, lookupA s0.defmap k = none →
      lookupA s.defmap k =
        (firstIdx (fun d => d.key == k) ds).map (· + s0.defs.length)) ∧
    (∀ k, (lookupA s.impls k).getD [] =
      (lookupA s0.impls k).getD [] ++ claimIdx s0.defs.length ds k) ∧
    ((∀ k v, lookupA s0.impls k = some v → v ≠ []) →
      ∀ k v, lookupA s.impls k = some v → v ≠ []) := by
  induction ds with
  | nil =>
      intro s0 s h
      simp only [addAll] at h
      cases h
      refine ⟨by simp, fun k i hi => hi, fun k hk => by simp [firstIdx, hk],
        fun k => by simp [claimIdx], fun hi => hi⟩
  | cons d rest ih =>
      intro s0 s h
      simp only [addAll] at h
      cases hadd : s0.add d with
      | error e =>
          rw [hadd] at h
          exact absurd h (by simp)
      | ok s1 =>
          rw [hadd] at h
          obtain ⟨hnone, hdefs1, hself, hother, himpl, hne⟩ := add_ok_char s0 d s1 hadd
          obtain ⟨ihdefs, ihpres, ihnone, ihimpl, ihne⟩ := ih s1 s h
          have hlen : s1.defs.length = s0.defs.length + 1 := by
            rw [hdefs1]
            simp
          refine ⟨?_, ?_, ?_, ?_, ?_⟩
          · rw [ihdefs, hdefs1]
            simp
          · intro k i hi
            apply ihpres
            by_cases hk : k = d.key
            · subst hk
              simp [hnone] at hi
            · rw [hother k hk]
              exact hi
          · intro k hk0
            by_cases hk : k = d.key
            · subst hk
              have h1 := ihpres d.key s0.defs.length hself
              rw [h1]
              simp [firstIdx]
            · have h1 : lookupA s1.defmap k = none := by
                rw [hother k hk]
                exact hk0
              have hbeq : (d.key == k) = false := by
                simp only [beq_eq_false_iff_ne, ne_eq]
                exact fun hh => hk hh.symm
              rw [ihnone k h1]
              simp only [firstIdx, hbeq, if_neg]
              cases hfi : firstIdx (fun d' => d'.key == k) rest <;>
                simp [hfi, hlen] <;> omega
          · intro k
            rw [ihimpl k, himpl k, hlen, List.append_assoc]
            simp [claimIdx]
          · intro hi0
            exact ihne (hne hi0)

/-- When no definition claims `k`, nothing is appended to its capability
list. -/
theorem claimIdx_of_no_claimant (ds : List definition) : ∀ (base : Nat) (k : key),
    firstIdx (fun d => decide (k ∈ d.implements)) ds = none →
    claimIdx base ds k = [] := by
  induction ds with
  | nil => intro base k _; rfl
  | cons d rest ih =>
      intro base k h
      by_cases hd : k ∈ d.implements
      · simp [firstIdx, hd] at h
      · have hcnt : d.implements.count k = 0 := by
          rw [List.count_eq_zero]
          exact hd
        simp only [firstIdx] at h
        rw [if_neg (by simp [hd])] at h
        cases hfi : firstIdx (fun d' => decide (k ∈ d'.implements)) rest with
        | some j =>
            rw [hfi] at h
            simp at h
        | none => simp [claimIdx, hcnt, ih (base + 1) k hfi]

/-- The head of the capability list built by registration is the
first-registered claimant, offset by the base index. -/
theorem claimIdx_head (ds : List definition) : ∀ (base : Nat) (k : key) (j : Nat),
    firstIdx (fun d => decide (k ∈ d.implements)) ds = some j →
    ∃ tail, claimIdx base ds k = (base + j) :: tail := by
  induction ds with
  | nil => intro base k j h; simp [firstIdx] at h
  | cons d rest ih =>
      intro base k j h
      by_cases hd : k ∈ d.implements
      · simp only [firstIdx] at h
        rw [if_pos (by simp [hd])] at h
        cases h
        have hcnt : 0 < d.implements.count k := List.count_pos_iff.mpr hd
        obtain ⟨n, hn⟩ : ∃ n, d.implements.count k = n + 1 :=
          ⟨d.implements.count k - 1, by omega⟩
        refine ⟨List.replicate n base ++ claimIdx (base + 1) rest k, ?_⟩
        simp [claimIdx, hn, List.replicate_succ]
      · simp only [firstIdx] at h
        rw [if_neg (by simp [hd])] at h
        have hcnt : d.implements.count k = 0 := by
          rw [List.count_eq_zero]
          exact hd
        cases hfi : firstIdx (fun d' => decide (k ∈ d'.implements)) rest with
        | none =>
            rw [hfi] at h
            simp at h
        | some j' =>
            rw [hfi] at h
            simp only [Option.map_some'] at h
            obtain ⟨tail, htail⟩ := ih (base + 1) k j' hfi
            refine ⟨tail, ?_⟩
            simp only [claimIdx, hcnt, List.replicate, List.nil_append, htail]
            have hj : j' + 1 = j := by
              cases h
              rfl
            congr 1
            omega

/-- C1.  For storage built by registering `ds` in order from empty: `get k`
returns the exactly-bound definition when one exists; otherwise, when at
least one definition declares `k` as a capability, it returns the
first-registered such claimant (capability lists are appended in
registration order by `add`); otherwise it fails with the "not provided"
error.  In particular, when two registered providers both declare the same
capability and no provider binds it exactly, unqualified resolution yields
the first-registered claimant. -/
theorem get_two_tier_lookup (ds : List definition) (s : definitions) (k : key)
    (h : addAll emptyStorage ds = .ok s) :
    (∀ j, firstIdx (fun d => d.key == k) ds = some j → s.get k = .ok j) ∧
    (firstIdx (fun d => d.key == k) ds = none →
      (∀ j, firstIdx (fun d => decide (k ∈ d.implements)) ds = some j →
        s.get k = .ok j) ∧
      (firstIdx (fun d => decide (k ∈ d.implements)) ds = none →
        s.get k = .error ("type " ++ keyStr k ++ " not provided"))) := by
  obtain ⟨hdefs, hpres, hnone, himpl, hne⟩ := addAll_char ds emptyStorage s h
  have hmap : lookupA s.defmap k =
      (firstIdx (fun d => d.key == k) ds).map (· + emptyStorage.defs.length) :=
    hnone k rfl
  have himps : (lookupA s.impls k).getD [] = claimIdx 0 ds k := by
    have := himpl k
    simpa [emptyStorage, lookupA] using this
  have hinv : ∀ k0 v, lookupA s.impls k0 = some v → v ≠ [] := by
    apply hne
    intro k0 v hv
    simp [emptyStorage, lookupA] at hv
  constructor
  · intro j hj
    have hsome : lookupA s.defmap k = some j := by
      rw [hmap, hj]
      simp [emptyStorage]
    simp [definitions.get, hsome]
  · intro hkey
    have hdm : lookupA s.defmap k = none := by
      rw [hmap, hkey]
      rfl
    constructor
    · intro j hj
      obtain ⟨tail, htail⟩ := claimIdx_head ds 0 k j hj
      rw [← himps] at htail
      cases hlook : lookupA s.impls k with
      | none =>
          rw [hlook] at htail
          simp at htail
      | some l =>
          rw [hlook] at htail
          simp only [Option.getD_some] at htail
          simp [definitions.get, hdm, hlook, htail]
    · intro hnoclaim
      have hempty : claimIdx 0 ds k = [] := claimIdx_of_no_claimant ds 0 k hnoclaim
      rw [← himps] at hempty
      cases hlook : lookupA s.impls k with
      | none => simp [definitions.get, hdm, hlook]
      | some l =>
          rw [hlook] at hempty
          simp only [Option.getD_some] at hempty
          exact absurd hempty (hinv k l hlook)

/-- Two concrete providers claiming capability 9, the second also claiming
it; neither binds key 9 exactly. -/
def claimantA : definition :=
  { key := { typ := ⟨1, false⟩ },
    provider := { providerType := .func, providerValue := dfltFuncValue,
                  resultType := ⟨1, false⟩ },
    implements := [{ typ := ⟨9, false⟩ }] }

def claimantB : definition :=
  { key := { typ := ⟨2, false⟩ },
    provider := { providerType := .func, providerValue := dfltFuncValue,
                  resultType := ⟨2, false⟩ },
    implements := [{ typ := ⟨9, false⟩ }] }

/-- The storage produced by registering the two claimants in order. -/
def claimStorage : definitions :=
  { keys := [{ typ := ⟨1, false⟩ }, { typ := ⟨2, false⟩ }],
    defs := [claimantA, claimantB],
    defmap := [({ typ := ⟨1, false⟩ }, 0), ({ typ := ⟨2, false⟩ }, 1)],
    impls := [({ typ := ⟨9, false⟩ }, [0, 1])] }

/-- C1 witness: with two providers declaring capability 9 registered in
order, unqualified resolution of key 9 yields the first-registered one
(index 0). -/
theorem get_two_tier_lookup_witness :
    addAll emptyStorage [claimantA, claimantB] = .ok claimStorage ∧
    claimStorage.get { typ := ⟨9, false⟩ } = .ok 0 :=
  ⟨rfl,
    ((get_two_tier_lookup [claimantA, claimantB] claimStorage { typ := ⟨9, false⟩ }
      rfl).2 (by decide)).1 0 (by decide)⟩

/-! ### Instantiation lemmas (towards C3) -/

theorem getD_set_self {α : Type} : ∀ (l : List α) (i : Nat) (a d : α),
    i < l.length → (l.set i a).getD i d = a := by
  intro l
  induction l with
  | nil => intro i a d h; simp at h
  | cons x rest ih =>
      intro i a d h
      cases i with
      | zero => rfl
      | succ n =>
          simp only [List.set]
          exact ih n a d (by simpa using h)

theorem getD_set_ne {α : Type} : ∀ (l : List α) (i j : Nat) (a d : α),
    i ≠ j → (l.set i a).getD j d = l.getD j d := by
  intro l
  induction l with
  | nil => intro i j a d _; simp
  | cons x rest ih =>
      intro i j a d hij
      cases i with
      | zero =>
          cases j with
          | zero => exact absurd rfl hij
          | succ m => rfl
      | succ n =>
          cases j with
          | zero => rfl
          | succ m =>
              simp only [List.set]
              exact ih n m a d (fun hh => hij (by rw [hh]))

theorem getDef_updDef_self (s : definitions) (i : Nat) (f : definition → definition)
    (h : i < s.defs.length) : getDef (updDef s i f) i = f (getDef s i) :=
  getD_set_self _ _ _ _ h

theorem getDef_updDef_ne (s : definitions) (i j : Nat) (f : definition → definition)
    (h : i ≠ j) : getDef (updDef s i f) j = getDef s j :=
  getD_set_ne _ _ _ _ _ h

theorem getDef_updDef_oob (s : definitions) (i : Nat) (f : definition → definition)
    (h : s.defs.length ≤ i) : getDef (updDef s i f) i = getDef s i := by
  simp [getDef, updDef, List.set_eq_of_length_le h]

theorem updDef_maps (s : definitions) (i : Nat) (f : definition → definition) :
    (updDef s i f).keys = s.keys ∧ (updDef s i f).defmap = s.defmap ∧
    (updDef s i f).impls = s.impls ∧ (updDef s i f).defs.length = s.defs.length :=
  ⟨rfl, rfl, rfl, by simp [updDef]⟩

/-- The fields of a definition that `init` never touches. -/
def statOf (d : definition) :
    Inject.key × providerWrapper × List Inject.key × List Nat × List Nat × Nat :=
  (d.key, d.provider, d.implements, d.inp, d.out, d.visited)

/-- State agreement on everything `init` leaves alone. -/
def Pstat (s s' : definitions) : Prop :=
  s'.keys = s.keys ∧ s'.defmap = s.defmap ∧ s'.impls = s.impls ∧
  s'.defs.length = s.defs.length ∧ ∀ d, statOf (getDef s' d) = statOf (getDef s d)

theorem Pstat_refl (s : definitions) : Pstat s s :=
  ⟨rfl, rfl, rfl, rfl, fun _ => rfl⟩

theorem Pstat_trans {s1 s2 s3 : definitions} (h1 : Pstat s1 s2) (h2 : Pstat s2 s3) :
    Pstat s1 s3 :=
  ⟨h2.1.trans h1.1, h2.2.1.trans h1.2.1, h2.2.2.1.trans h1.2.2.1,
   h2.2.2.2.1.trans h1.2.2.2.1, fun d => (h2.2.2.2.2 d).trans (h1.2.2.2.2 d)⟩

theorem Pstat_updDef_inst (s : definitions) (i : Nat) (c : Option Nat) :
    Pstat s (updDef s i (fun d0 => { d0 with inst := c })) := by
  refine ⟨rfl, rfl, rfl, by simp [updDef], fun d => ?_⟩
  by_cases hd : i = d
  · subst hd
    by_cases hi : i < s.defs.length
    · rw [getDef_updDef_self s i _ hi]
      rfl
    · rw [getDef_updDef_oob s i _ (by omega)]
  · rw [getDef_updDef_ne s i d _ hd]

theorem Pstat_updDef_calls (s : definitions) (i : Nat) :
    Pstat s (updDef s i (fun d0 => { d0 with calls := d0.calls + 1 })) := by
  refine ⟨rfl, rfl, rfl, by simp [updDef], fun d => ?_⟩
  by_cases hd : i = d
  · subst hd
    by_cases hi : i < s.defs.length
    · rw [getDef_updDef_self s i _ hi]
      rfl
    · rw [getDef_updDef_oob s i _ (by omega)]
  · rw [getDef_updDef_ne s i d _ hd]

/-- Instantiation only writes memoized instances and the ghost call counter: keys,
maps, arena length, and every static field of every definition survive. -/
theorem init_static (fuel : Nat) :
    (∀ s i v s', initDef fuel s i = .ok (v, s') → Pstat s s') ∧
    (∀ l s vs s', initArgs fuel s l = .ok (vs, s') → Pstat s s') := by
  induction fuel with
  | zero =>
      constructor
      · intro s i v s' h
        exact absurd h (by simp [initDef])
      · intro l s vs s' h
        cases l with
        | nil =>
            simp only [initArgs] at h
            cases h
            exact Pstat_refl s
        | cons j rest => simp [initArgs, initDef] at h
  | succ fuel ih =>
      have hdef : ∀ s i v s', initDef (fuel + 1) s i = .ok (v, s') → Pstat s s' := by
        intro s i v s' h
        simp only [initDef] at h
        split at h
        · cases h
          exact Pstat_refl s
        · split at h
          · simp at h
          · simp at h
          · rename_i args s1 hargs
            have h1 : Pstat s s1 := ih.2 _ _ _ _ hargs
            split at h
            · simp at h
            · cases h
              exact Pstat_trans h1 (Pstat_trans (Pstat_updDef_calls s1 i)
                (Pstat_updDef_inst _ i _))
      refine ⟨hdef, ?_⟩
      intro l
      induction l with
      | nil =>
          intro s vs s' h
          simp only [initArgs] at h
          cases h
          exact Pstat_refl s
      | cons j rest ihl =>
          intro s vs s' h
          simp only [initArgs] at h
          split at h
          · simp at h
          · simp at h
          · rename_i v1 s1 hj
            split at h
            · simp at h
            · simp at h
            · rename_i vs1 s2 hrest
              cases h
              exact Pstat_trans (hdef _ _ _ _ hj) (ihl _ _ _ hrest)

theorem init_cached_noop (fuel : Nat) (s : definitions) (i v : Nat)
    (h : (getDef s i).inst = some v) (hf : 0 < fuel) :
    initDef fuel s i = .ok (v, s) := by
  cases fuel with
  | zero => omega
  | succ fuel => simp [initDef, h]

theorem init_caches (fuel : Nat) (s : definitions) (i v : Nat) (s' : definitions)
    (hlt : i < s.defs.length) (h : initDef fuel s i = .ok (v, s')) :
    (getDef s' i).inst = some v := by
  cases fuel with
  | zero => simp [initDef] at h
  | succ fuel =>
      simp only [initDef] at h
      split at h
      · rename_i w hinst
        cases h
        exact hinst
      · split at h
        · simp at h
        · simp at h
        · rename_i args s1 hargs
          split at h
          · simp at h
          · cases h
            have hlen1 : s1.defs.length = s.defs.length :=
              ((init_static fuel).2 _ _ _ _ hargs).2.2.2.1
            rw [getDef_updDef_self _ i _ (by simp [updDef]; omega)]

theorem init_memoized (fuel f2 : Nat) (s : definitions) (i v : Nat)
    (s' : definitions) (hlt : i < s.defs.length)
    (h : initDef fuel s i = .ok (v, s')) (hf2 : 0 < f2) :
    initDef f2 s' i = .ok (v, s') :=
  init_cached_noop f2 s' i v (init_caches fuel s i v s' hlt h) hf2

theorem Pstat_inp {s s' : definitions} (h : Pstat s s') (d : Nat) :
    (getDef s' d).inp = (getDef s d).inp :=
  congrArg (fun t => t.2.2.2.1) (h.2.2.2.2 d)

theorem Pstat_out {s s' : definitions} (h : Pstat s s') (d : Nat) :
    (getDef s' d).out = (getDef s d).out :=
  congrArg (fun t => t.2.2.2.2.1) (h.2.2.2.2 d)

theorem Pstat_visited {s s' : definitions} (h : Pstat s s') (d : Nat) :
    (getDef s' d).visited = (getDef s d).visited :=
  congrArg (fun t => t.2.2.2.2.2) (h.2.2.2.2 d)

/-- Instantiation of `x` only touches definitions reachable from `x` along the
incoming-argument adjacency. -/
theorem init_footprint (fuel : Nat) :
    (∀ s x v s' (E : Nat → List Nat), (∀ j, (getDef s j).inp = E j) →
      initDef fuel s x = .ok (v, s') →
      ∀ d, ¬ ReachE E x d → getDef s' d = getDef s d) ∧
    (∀ l s vs s' (E : Nat → List Nat), (∀ j, (getDef s j).inp = E j) →
      initArgs fuel s l = .ok (vs, s') →
      ∀ d, (∀ j, j ∈ l → ¬ ReachE E j d) → getDef s' d = getDef s d) := by
  induction fuel with
  | zero =>
      constructor
      · intro s x v s' E _ h
        exact absurd h (by simp [initDef])
      · intro l s vs s' E _ h d _
        cases l with
        | nil =>
            simp only [initArgs] at h
            cases h
            rfl
        | cons j rest => simp [initArgs, initDef] at h
  | succ fuel ih =>
      have hdef : ∀ s x v s' (E : Nat → List Nat), (∀ j, (getDef s j).inp = E j) →
          initDef (fuel + 1) s x = .ok (v, s') →
          ∀ d, ¬ ReachE E x d → getDef s' d = getDef s d := by
        intro s x v s' E hE h d hreach
        simp only [initDef] at h
        split at h
        · cases h
          rfl
        · split at h
          · simp at h
          · simp at h
          · rename_i args s1 hargs
            have hne_xd : x ≠ d := fun he => hreach (Or.inl he)
            have hstep : ∀ j, j ∈ (getDef s x).inp → ¬ ReachE E j d := by
              intro j hj hr
              apply hreach
              have hedge : j ∈ E x := by
                rw [← hE x]
                exact hj
              rcases hr with he | hp
              · exact Or.inr (PathE.edge (he ▸ hedge))
              · exact Or.inr (PathE.cons hedge hp)
            have h1 : getDef s1 d = getDef s d := ih.2 _ _ _ _ E hE hargs d hstep
            split at h
            · simp at h
            · cases h
              rw [getDef_updDef_ne _ _ _ _ hne_xd, getDef_updDef_ne _ _ _ _ hne_xd, h1]
      refine ⟨hdef, ?_⟩
      intro l
      induction l with
      | nil =>
          intro s vs s' E _ h d _
          simp only [initArgs] at h
          cases h
          rfl
      | cons j rest ihl =>
          intro s vs s' E hE h d hreach
          simp only [initArgs] at h
          split at h
          · simp at h
          · simp at h
          · rename_i v1 s1 hj
            split at h
            · simp at h
            · simp at h
            · rename_i vs1 s2 hrest
              have hstat : Pstat s s1 := (init_static (fuel + 1)).1 _ _ _ _ hj
              have hE1 : ∀ j0, (getDef s1 j0).inp = E j0 := by
                intro j0
                rw [Pstat_inp hstat j0]
                exact hE j0
              have h1 : getDef s1 d = getDef s d :=
                hdef s j v1 s1 E hE hj d (hreach j (List.mem_cons_self j rest))
              have h2 : getDef s2 d = getDef s1 d :=
                ihl s1 vs1 s2 E hE1 hrest d
                  (fun j0 hj0 => hreach j0 (List.mem_cons_of_mem j hj0))
              cases h
              rw [h2, h1]

/-- In an acyclic argument graph, a first (uncached) successful
instantiation invokes the constructor exactly once. -/
theorem init_invoked_once (fuel : Nat) (s : definitions) (i v : Nat)
    (s' : definitions) (hlt : i < s.defs.length)
    (hnone : (getDef s i).inst = none)
    (hacyc : ∀ j, ¬ PathE (inpE s) j j)
    (h : initDef fuel s i = .ok (v, s')) :
    (getDef s' i).calls = (getDef s i).calls + 1 := by
  cases fuel with
  | zero => simp [initDef] at h
  | succ fuel =>
      simp only [initDef] at h
      split at h
      · rename_i w hinst
        rw [hnone] at hinst
        simp at hinst
      · split at h
        · simp at h
        · simp at h
        · rename_i args s1 hargs
          split at h
          · simp at h
          · cases h
            have hfoot : getDef s1 i = getDef s i := by
              apply (init_footprint fuel).2 _ _ _ _ (inpE s) (fun j => rfl) hargs
              intro j hj hr
              apply hacyc i
              have hedge : j ∈ inpE s i := hj
              rcases hr with he | hp
              · exact PathE.edge (he ▸ hedge)
              · exact PathE.cons hedge hp
            have hlen1 : s1.defs.length = s.defs.length :=
              ((init_static fuel).2 _ _ _ _ hargs).2.2.2.1
            rw [getDef_updDef_self _ i _ (by simp [updDef]; omega)]
            show (getDef (updDef s1 i _) i).calls = _
            rw [getDef_updDef_self _ i _ (by omega)]
            show (getDef s1 i).calls + 1 = _
            rw [hfoot]

theorem lookupA_mem {α : Type} : ∀ (m : List (key × α)) (k : key) (v : α),
    lookupA m k = some v → (k, v) ∈ m := by
  intro m
  induction m with
  | nil => intro k v h; simp [lookupA] at h
  | cons p rest ih =>
      intro k v h
      simp only [lookupA] at h
      split at h
      · rename_i hk
        cases h
        rw [← hk]
        exact List.mem_cons_self p rest
      · exact List.mem_cons_of_mem p (ih k v h)

theorem mapsBounded_get (s : definitions) (hb : mapsBounded s = true) (k : key)
    (i : Nat) (h : s.get k = .ok i) : i < s.defs.length := by
  simp only [mapsBounded, Bool.and_eq_true, List.all_eq_true, decide_eq_true_eq] at hb
  simp only [definitions.get] at h
  split at h
  · rename_i j hj
    have hmem := hb.1 _ (lookupA_mem _ _ _ hj)
    cases h
    exact hmem
  · split at h
    · rename_i j rest hjl
      have hmem := hb.2 _ (lookupA_mem _ _ _ hjl) j (List.mem_cons_self j rest)
      cases h
      exact hmem
    · simp at h

theorem get_congr (s s' : definitions) (h1 : s'.defmap = s.defmap)
    (h2 : s'.impls = s.impls) (k : key) : s'.get k = s.get k := by
  simp only [definitions.get, h1, h2]

/-- A successful `Populate` of a pointer target is idempotent: repeating it
returns the same instance and leaves the state untouched. -/
theorem populate_twice (s : definitions) (t : TypeRep)
    (opts opts2 : List ProvideOption) (w : Nat) (s2 : definitions)
    (hb : mapsBounded s = true)
    (h : Populate s (.ptr t) opts = .ok (w, s2)) :
    Populate s2 (.ptr t) opts2 = .ok (w, s2) := by
  simp only [Populate] at h ⊢
  split at h
  · simp at h
  · rename_i i hget
    split at h
    · simp at h
    · simp at h
    · rename_i v s1 hinit
      cases h
      have hlt : i < s.defs.length := mapsBounded_get s hb _ i hget
      have hstat : Pstat s s2 := (init_static _).1 _ _ _ _ hinit
      have hget2 : s2.get { typ := t } = .ok i := by
        rw [get_congr s s2 hstat.2.1 hstat.2.2.1]
        exact hget
      have hmemo : initDef (s2.defs.length + 1) s2 i = .ok (w, s2) :=
        init_memoized _ _ _ _ _ _ hlt hinit (by omega)
      simp [hget2, hmemo]

/-! ### Claim C3: instance resolution is idempotent and memoized -/

/-- C3.  Instance resolution is idempotent and memoized.  (i) A successful
resolution leaves the instance cached, and any later resolution (however it
is triggered — `Populate`, argument wiring and modifiers all call the same
`init`) returns the very same instance with the state unchanged, hence
without re-invoking the underlying constructor (the ghost invocation
counters are part of the unchanged state).  (ii) In a compiled container —
whose argument graph is acyclic — a first (uncached) successful resolution
invokes the underlying constructor exactly once.  (iii) `Populate`-ing the
same type twice yields the identical instance and identical state. -/
theorem init_memoized_idempotent :
    (∀ fuel s i v s', i < s.defs.length → initDef fuel s i = .ok (v, s') →
      (getDef s' i).inst = some v ∧
      ∀ fuel2, 0 < fuel2 → initDef fuel2 s' i = .ok (v, s')) ∧
    (∀ fuel s i v s', i < s.defs.length → (getDef s i).inst = none →
      (∀ j, ¬ PathE (inpE s) j j) → initDef fuel s i = .ok (v, s') →
      (getDef s' i).calls = (getDef s i).calls + 1) ∧
    (∀ s t opts opts2 w s2, mapsBounded s = true →
      Populate s (.ptr t) opts = .ok (w, s2) →
      Populate s2 (.ptr t) opts2 = .ok (w, s2)) := by
  refine ⟨?_, ?_, ?_⟩
  · intro fuel s i v s' hlt h
    exact ⟨init_caches fuel s i v s' hlt h,
      fun f2 hf2 => init_memoized fuel f2 s i v s' hlt h hf2⟩
  · intro fuel s i v s' hlt hnone hacyc h
    exact init_invoked_once fuel s i v s' hlt hnone hacyc h
  · intro s t opts opts2 w s2 hb h
    exact populate_twice s t opts opts2 w s2 hb h

/-- A one-provider storage for the memoization witness: type 1 is produced
by a constructor with no arguments returning instance 42. -/
def memoProvider : funcValue := ⟨[], [⟨1, false⟩], fun _ => (42, none)⟩

def memoDef : definition :=
  { key := { typ := ⟨1, false⟩ },
    provider := { providerType := .func, providerValue := memoProvider,
                  resultType := ⟨1, false⟩ },
    implements := [] }

def memoState : definitions :=
  { keys := [{ typ := ⟨1, false⟩ }], defs := [memoDef],
    defmap := [({ typ := ⟨1, false⟩ }, 0)], impls := [] }

/-- The state after the first instantiation: instance 42 cached, one
constructor invocation recorded. -/
def memoState1 : definitions :=
  updDef (updDef memoState 0 (fun d => { d with calls := d.calls + 1 }))
    0 (fun d => { d with inst := some 42 })

/-- C3 witness: populating type 1 twice on the one-provider storage yields
the identical instance 42 both times and the second run leaves the state of
the first run untouched. -/
theorem init_memoized_idempotent_witness :
    mapsBounded memoState = true ∧
    Populate memoState (.ptr ⟨1, false⟩) [] = .ok (42, memoState1) ∧
    Populate memoState1 (.ptr ⟨1, false⟩) [] = .ok (42, memoState1) := by
  have h1 : Populate memoState (.ptr ⟨1, false⟩) [] = .ok (42, memoState1) := by
    simp [Populate, definitions.get, lookupA, memoState, initDef, initArgs, getDef,
      memoDef, memoProvider, memoState1, updDef]
  exact ⟨rfl, h1,
    init_memoized_idempotent.2.2 memoState ⟨1, false⟩ [] [] 42 memoState1 rfl h1⟩

/-! ### Wiring lemmas (towards C9) -/

/-- The fields of a definition that wiring never touches. -/
def wstatOf (d : definition) :
    Inject.key × providerWrapper × List Inject.key × Nat × Option Nat × Nat :=
  (d.key, d.provider, d.implements, d.visited, d.inst, d.calls)

/-- State agreement on everything wiring leaves alone. -/
def Wstat (s s' : definitions) : Prop :=
  s'.keys = s.keys ∧ s'.defmap = s.defmap ∧ s'.impls = s.impls ∧
  s'.defs.length = s.defs.length ∧ ∀ d, wstatOf (getDef s' d) = wstatOf (getDef s d)

theorem Wstat_refl (s : definitions) : Wstat s s :=
  ⟨rfl, rfl, rfl, rfl, fun _ => rfl⟩

theorem Wstat_trans {s1 s2 s3 : definitions} (h1 : Wstat s1 s2) (h2 : Wstat s2 s3) :
    Wstat s1 s3 :=
  ⟨h2.1.trans h1.1, h2.2.1.trans h1.2.1, h2.2.2.1.trans h1.2.2.1,
   h2.2.2.2.1.trans h1.2.2.2.1, fun d => (h2.2.2.2.2 d).trans (h1.2.2.2.2 d)⟩

theorem Wstat_updDef_inp (s : definitions) (i r : Nat) :
    Wstat s (updDef s i (fun d0 => { d0 with inp := d0.inp ++ [r] })) := by
  refine ⟨rfl, rfl, rfl, by simp [updDef], fun d => ?_⟩
  by_cases hd : i = d
  · subst hd
    by_cases hi : i < s.defs.length
    · rw [getDef_updDef_self s i _ hi]
      rfl
    · rw [getDef_updDef_oob s i _ (by omega)]
  · rw [getDef_updDef_ne s i d _ hd]

theorem Wstat_updDef_out (s : definitions) (r i : Nat) :
    Wstat s (updDef s r (fun d0 => { d0 with out := d0.out ++ [i] })) := by
  refine ⟨rfl, rfl, rfl, by simp [updDef], fun d => ?_⟩
  by_cases hd : r = d
  · subst hd
    by_cases hr : r < s.defs.length
    · rw [getDef_updDef_self s r _ hr]
      rfl
    · rw [getDef_updDef_oob s r _ (by omega)]
  · rw [getDef_updDef_ne s r d _ hd]

theorem Wstat_provider {s s' : definitions} (h : Wstat s s') (d : Nat) :
    (getDef s' d).provider = (getDef s d).provider :=
  congrArg (fun t => t.2.1) (h.2.2.2.2 d)

theorem mapsBounded_congr {s s' : definitions} (h1 : s'.defmap = s.defmap)
    (h2 : s'.impls = s.impls) (h3 : s'.defs.length = s.defs.length) :
    mapsBounded s' = mapsBounded s := by
  simp [mapsBounded, h1, h2, h3]

theorem resolveD_congr {s s' : definitions} (h1 : s'.defmap = s.defmap)
    (h2 : s'.impls = s.impls) (h3 : s'.defs.length = s.defs.length) (k : key) :
    resolveD s' k = resolveD s k := by
  simp [resolveD, get_congr s s' h1 h2, h3]

/-- Characterization of a successful `connectArgs`: state agreement outside
the edge lists, the incoming list of `i` extended by the resolved indices in
order, every outgoing list extended by one occurrence of `i` per resolved
reference to it, incoming lists of other definitions untouched, and every
key of the list resolvable. -/
theorem connectArgs_ok_char : ∀ (ks : List key) (s : definitions) (i : Nat)
    (s' : definitions), mapsBounded s = true → i < s.defs.length →
    connectArgs s i ks = .ok s' →
    Wstat s s' ∧
    (getDef s' i).inp = (getDef s i).inp ++ ks.map (resolveD s) ∧
    (∀ j, (getDef s' j).out =
      (getDef s j).out ++ List.replicate ((ks.map (resolveD s)).count j) i) ∧
    (∀ j, j ≠ i → (getDef s' j).inp = (getDef s j).inp) ∧
    (∀ k, k ∈ ks → s.get k = .ok (resolveD s k)) := by
  intro ks
  induction ks with
  | nil =>
      intro s i s' hb hi h
      simp only [connectArgs] at h
      cases h
      exact ⟨Wstat_refl s, by simp, fun j => by simp, fun j _ => rfl, fun k hk => by simp at hk⟩
  | cons k rest ih =>
      intro s i s' hb hi h
      simp only [connectArgs] at h
      split at h
      · simp at h
      · rename_i r hget
        set s1 := updDef s i (fun d => { d with inp := d.inp ++ [r] }) with hs1
        set s2 := updDef s1 r (fun d => { d with out := d.out ++ [i] }) with hs2
        have hw1 : Wstat s s1 := Wstat_updDef_inp s i r
        have hw2 : Wstat s1 s2 := Wstat_updDef_out s1 r i
        have hw12 : Wstat s s2 := Wstat_trans hw1 hw2
        have hb2 : mapsBounded s2 = true := by
          rw [mapsBounded_congr hw12.2.1 hw12.2.2.1 hw12.2.2.2.1]
          exact hb
        have hi2 : i < s2.defs.length := by
          rw [hw12.2.2.2.1]
          exact hi
        have hres2 : ∀ k0, resolveD s2 k0 = resolveD s k0 :=
          resolveD_congr hw12.2.1 hw12.2.2.1 hw12.2.2.2.1
        have hresf : resolveD s2 = resolveD s := funext hres2
        have hget2 : ∀ k0, s2.get k0 = s.get k0 :=
          get_congr s s2 hw12.2.1 hw12.2.2.1
        have hrlt : r < s.defs.length := mapsBounded_get s hb k r hget
        have hrk : resolveD s k = r := by
          simp [resolveD, hget]
        obtain ⟨ihw, ihinp, ihout, ihother, ihres⟩ := ih s2 i s' hb2 hi2 h
        have hinp1 : (getDef s1 i).inp = (getDef s i).inp ++ [r] := by
          rw [hs1, getDef_updDef_self s i _ hi]
        have hinp2 : (getDef s2 i).inp = (getDef s1 i).inp := by
          by_cases hri : r = i
          · subst hri
            rw [hs2, getDef_updDef_self s1 r _ (by rw [hw1.2.2.2.1]; exact hi)]
          · rw [hs2, getDef_updDef_ne s1 r i _ hri]
        refine ⟨Wstat_trans hw12 ihw, ?_, ?_, ?_, ?_⟩
        · rw [ihinp, hinp2, hinp1]
          simp [hres2, hrk, List.append_assoc]
        · intro j
          have hout1 : ∀ j0, (getDef s1 j0).out = (getDef s j0).out := by
            intro j0
            by_cases hji : i = j0
            · subst hji
              by_cases hi0 : i < s.defs.length
              · rw [hs1, getDef_updDef_self s i _ hi0]
              · rw [hs1, getDef_updDef_oob s i _ (by omega)]
            · rw [hs1, getDef_updDef_ne s i j0 _ hji]
          have hout2 : (getDef s2 j).out =
              (getDef s j).out ++ (if r = j then [i] else []) := by
            by_cases hrj : r = j
            · subst hrj
              rw [hs2, getDef_updDef_self s1 r _ (by rw [hw1.2.2.2.1]; exact hrlt)]
              simp [hout1 r]
            · rw [hs2, getDef_updDef_ne s1 r j _ hrj, hout1 j]
              simp [hrj]
          rw [ihout j, hout2, hresf]
          simp only [List.map_cons, hrk]
          by_cases hrj : r = j
          · subst hrj
            rw [List.count_cons_self]
            simp [List.append_assoc, List.replicate_succ]
          · rw [List.count_cons_of_ne (fun hh => hrj hh.symm)]
            simp [hrj]
        · intro j hj
          have ha : (getDef s' j).inp = (getDef s2 j).inp := ihother j hj
          have hb1 : (getDef s1 j).inp = (getDef s j).inp := by
            rw [hs1, getDef_updDef_ne s i j _ (fun hh => hj hh.symm)]
          have hb2' : (getDef s2 j).inp = (getDef s1 j).inp := by
            by_cases hrj : r = j
            · subst hrj
              by_cases hr1 : r < s1.defs.length
              · rw [hs2, getDef_updDef_self s1 r _ hr1]
              · rw [hs2, getDef_updDef_oob s1 r _ (by omega)]
            · rw [hs2, getDef_updDef_ne s1 r j _ hrj]
          rw [ha, hb2', hb1]
        · intro k0 hk0
          rcases List.mem_cons.mp hk0 with he | hm
          · subst he
            rw [hrk]
            exact hget
          · have := ihres k0 hm
            rw [hget2, hres2] at this
            exact this

/-- A failing `connectArgs` aborts with the error of some failing lookup. -/
theorem connectArgs_fail_char : ∀ (ks : List key) (s : definitions) (i : Nat)
    (e : String), connectArgs s i ks = .fail e →
    ∃ k, k ∈ ks ∧ s.get k = .error e := by
  intro ks
  induction ks with
  | nil =>
      intro s i e h
      simp [connectArgs] at h
  | cons k rest ih =>
      intro s i e h
      simp only [connectArgs] at h
      split at h
      · rename_i e0 hget
        cases h
        exact ⟨k, List.mem_cons_self k rest, hget⟩
      · rename_i r hget
        set s1 := updDef s i (fun d => { d with inp := d.inp ++ [r] }) with hs1
        set s2 := updDef s1 r (fun d => { d with out := d.out ++ [i] }) with hs2
        have hw12 : Wstat s s2 :=
          Wstat_trans (Wstat_updDef_inp s i r) (Wstat_updDef_out s1 r i)
        obtain ⟨k0, hk0, hk0e⟩ := ih s2 i e h
        rw [get_congr s s2 hw12.2.1 hw12.2.2.1] at hk0e
        exact ⟨k0, List.mem_cons_of_mem k hk0, hk0e⟩

/-- Characterization of a successful wiring pass over all definitions. -/
theorem connectList_ok_char : ∀ (l : List Nat) (s s' : definitions),
    mapsBounded s = true → (∀ i, i ∈ l → i < s.defs.length) → l.Nodup →
    connectList s l = .ok s' →
    Wstat s s' ∧
    (∀ i, i ∈ l → (getDef s' i).inp =
      (getDef s i).inp ++ ((getDef s i).provider.args).map (resolveD s)) ∧
    (∀ i, i ∈ l → ∀ r, r ∈ ((getDef s i).provider.args).map (resolveD s) →
      i ∈ (getDef s' r).out) ∧
    (∀ j, j ∉ l → (getDef s' j).inp = (getDef s j).inp) ∧
    (∀ j x, x ∈ (getDef s j).out → x ∈ (getDef s' j).out) ∧
    (∀ i, i ∈ l → ∀ k, k ∈ (getDef s i).provider.args →
      s.get k = .ok (resolveD s k)) := by
  intro l
  induction l with
  | nil =>
      intro s s' _ _ _ h
      simp only [connectList] at h
      cases h
      exact ⟨Wstat_refl s, fun i hi => by simp at hi, fun i hi => by simp at hi,
        fun j _ => rfl, fun j x hx => hx, fun i hi => by simp at hi⟩
  | cons i rest ih =>
      intro s s' hb hl hnd h
      simp only [connectList] at h
      split at h
      · simp at h
      · simp at h
      · rename_i s2 hca
        have hi : i < s.defs.length := hl i (List.mem_cons_self i rest)
        have hnotin : i ∉ rest := (List.nodup_cons.mp hnd).1
        have hndr : rest.Nodup := (List.nodup_cons.mp hnd).2
        obtain ⟨hw12, hinp_i, hout_all, hinp_other, hres_all⟩ :=
          connectArgs_ok_char _ s i s2 hb hi hca
        have hb2 : mapsBounded s2 = true := by
          rw [mapsBounded_congr hw12.2.1 hw12.2.2.1 hw12.2.2.2.1]
          exact hb
        have hl2 : ∀ i0, i0 ∈ rest → i0 < s2.defs.length := by
          intro i0 hi0
          rw [hw12.2.2.2.1]
          exact hl i0 (List.mem_cons_of_mem i hi0)
        have hresf : resolveD s2 = resolveD s :=
          funext (resolveD_congr hw12.2.1 hw12.2.2.1 hw12.2.2.2.1)
        have hgetf : ∀ k0, s2.get k0 = s.get k0 :=
          get_congr s s2 hw12.2.1 hw12.2.2.1
        have hprov : ∀ j, (getDef s2 j).provider = (getDef s j).provider :=
          Wstat_provider hw12
        obtain ⟨ihw, ihinp, ihout, ihother, ihmono, ihres⟩ :=
          ih s2 s' hb2 hl2 hndr h
        refine ⟨Wstat_trans hw12 ihw, ?_, ?_, ?_, ?_, ?_⟩
        · intro i0 hi0
          rcases List.mem_cons.mp hi0 with he | hm
          · subst he
            rw [ihother i0 hnotin, hinp_i]
          · have h1 := ihinp i0 hm
            have hne : i0 ≠ i := fun he => hnotin (he ▸ hm)
            rw [hinp_other i0 hne, hprov i0, hresf] at h1
            exact h1
        · intro i0 hi0 r hr
          rcases List.mem_cons.mp hi0 with he | hm
          · subst he
            apply ihmono
            rw [hout_all r]
            have hcnt : 0 < (((getDef s i0).provider.args).map (resolveD s)).count r :=
              List.count_pos_iff.mpr hr
            apply List.mem_append_right
            rw [List.mem_replicate]
            omega
          · have hr2 : r ∈ ((getDef s2 i0).provider.args).map (resolveD s2) := by
              rw [hprov i0, hresf]
              exact hr
            exact ihout i0 hm r hr2
        · intro j hj
          have hne : j ≠ i := fun he => hj (he ▸ List.mem_cons_self i rest)
          have hnr : j ∉ rest := fun hm => hj (List.mem_cons_of_mem i hm)
          rw [ihother j hnr, hinp_other j hne]
        · intro j x hx
          apply ihmono
          rw [hout_all j]
          exact List.mem_append_left _ hx
        · intro i0 hi0 k hk
          rcases List.mem_cons.mp hi0 with he | hm
          · subst he
            exact hres_all k hk
          · have hk2 : k ∈ (getDef s2 i0).provider.args := by
              rw [hprov i0]
              exact hk
            have h1 := ihres i0 hm k hk2
            rw [hgetf, hresf] at h1
            exact h1

/-- A failing wiring pass aborts with the error of some definition's failing
argument lookup. -/
theorem connectList_fail_char : ∀ (l : List Nat) (s : definitions) (e : String),
    mapsBounded s = true → (∀ i, i ∈ l → i < s.defs.length) →
    connectList s l = .fail e →
    ∃ i, i ∈ l ∧ ∃ k, k ∈ (getDef s i).provider.args ∧ s.get k = .error e := by
  intro l
  induction l with
  | nil =>
      intro s e _ _ h
      simp [connectList] at h
  | cons i rest ih =>
      intro s e hb hl h
      simp only [connectList] at h
      split at h
      · rename_i e0 hca
        cases h
        obtain ⟨k, hk, hke⟩ := connectArgs_fail_char _ s i e hca
        exact ⟨i, List.mem_cons_self i rest, k, hk, hke⟩
      · simp at h
      · rename_i s2 hca
        have hi : i < s.defs.length := hl i (List.mem_cons_self i rest)
        obtain ⟨hw12, _, _, _, _⟩ := connectArgs_ok_char _ s i s2 hb hi hca
        have hb2 : mapsBounded s2 = true := by
          rw [mapsBounded_congr hw12.2.1 hw12.2.2.1 hw12.2.2.2.1]
          exact hb
        have hl2 : ∀ i0, i0 ∈ rest → i0 < s2.defs.length := by
          intro i0 hi0
          rw [hw12.2.2.2.1]
          exact hl i0 (List.mem_cons_of_mem i hi0)
        obtain ⟨i0, hi0, k, hk, hke⟩ := ih s2 e hb2 hl2 h
        refine ⟨i0, List.mem_cons_of_mem i hi0, k, ?_, ?_⟩
        · rw [← Wstat_provider hw12 i0]
          exact hk
        · rw [← get_congr s s2 hw12.2.1 hw12.2.2.1]
          exact hke

/-! ### Claim C9: wiring builds mutual bidirectional edges -/

/-- C9.  After a successful wiring pass: for every definition `i` (taken in
storage order, which covers the arena), its incoming list is exactly the
definitions resolved for its declared argument keys, positionally in
declared order (each argument key resolving via storage `get`), and `i`
occurs in the outgoing list of every definition in its incoming list — the
edges are mutual.  If any argument key fails to resolve, wiring aborts with
that originating "not provided" cause. -/
theorem wiring_bidirectional_edges :
    (∀ s0 s', mapsBounded s0 = true → allIsRange s0 = true →
      (∀ i, i < s0.defs.length → (getDef s0 i).inp = []) →
      connectAll s0 = .ok s' →
      ∀ i, i < s0.defs.length →
        (getDef s' i).inp = ((getDef s0 i).provider.args).map (resolveD s0) ∧
        (∀ k, k ∈ (getDef s0 i).provider.args → s0.get k = .ok (resolveD s0 k)) ∧
        (∀ r, r ∈ (getDef s' i).inp → i ∈ (getDef s' r).out)) ∧
    (∀ s0 e, mapsBounded s0 = true → allIsRange s0 = true →
      connectAll s0 = .fail e →
      ∃ i, i < s0.defs.length ∧ ∃ k, k ∈ (getDef s0 i).provider.args ∧
        s0.get k = .error e) := by
  constructor
  · intro s0 s' hb hall hinp0 h i hi
    have hrange : s0.all = List.range s0.defs.length := by
      simpa [allIsRange] using hall
    have hmem : i ∈ s0.all := by
      rw [hrange]
      exact List.mem_range.mpr hi
    have hl : ∀ i0, i0 ∈ s0.all → i0 < s0.defs.length := by
      intro i0 hi0
      rw [hrange] at hi0
      exact List.mem_range.mp hi0
    have hnd : s0.all.Nodup := by
      rw [hrange]
      exact List.nodup_range _
    obtain ⟨hw, hinp, hout, _, _, hres⟩ :=
      connectList_ok_char s0.all s0 s' hb hl hnd h
    have hinp_i : (getDef s' i).inp =
        ((getDef s0 i).provider.args).map (resolveD s0) := by
      rw [hinp i hmem, hinp0 i hi]
      rfl
    refine ⟨hinp_i, fun k hk => hres i hmem k hk, ?_⟩
    intro r hr
    apply hout i hmem r
    rw [← hinp_i]
    exact hr
  · intro s0 e hb hall h
    have hrange : s0.all = List.range s0.defs.length := by
      simpa [allIsRange] using hall
    have hl : ∀ i0, i0 ∈ s0.all → i0 < s0.defs.length := by
      intro i0 hi0
      rw [hrange] at hi0
      exact List.mem_range.mp hi0
    obtain ⟨i, hi, k, hk, hke⟩ := connectList_fail_char s0.all s0 e hb hl h
    exact ⟨i, hl i hi, k, hk, hke⟩

/-- A concrete pre-wiring storage: definition 0 (type 1) consumes type 2,
definition 1 (type 2) has no arguments. -/
def wireDefA : definition :=
  { key := { typ := ⟨1, false⟩ },
    provider := { providerType := .func,
                  providerValue := ⟨[⟨2, false⟩], [⟨1, false⟩], fun _ => (0, none)⟩,
                  resultType := ⟨1, false⟩ },
    implements := [] }

def wireDefB : definition :=
  { key := { typ := ⟨2, false⟩ },
    provider := { providerType := .func,
                  providerValue := ⟨[], [⟨2, false⟩], fun _ => (0, none)⟩,
                  resultType := ⟨2, false⟩ },
    implements := [] }

def wireState : definitions :=
  { keys := [{ typ := ⟨1, false⟩ }, { typ := ⟨2, false⟩ }],
    defs := [wireDefA, wireDefB],
    defmap := [({ typ := ⟨1, false⟩ }, 0), ({ typ := ⟨2, false⟩ }, 1)],
    impls := [] }

/-- The wired state: edge 0 → 1 recorded on both sides. -/
def wireState1 : definitions :=
  updDef (updDef wireState 0 (fun d => { d with inp := d.inp ++ [1] }))
    1 (fun d => { d with out := d.out ++ [0] })

/-- C9 witness: wiring the concrete two-provider storage succeeds, makes
definition 0's incoming list exactly the resolution of its declared
argument, and records 0 in definition 1's outgoing list. -/
theorem wiring_bidirectional_edges_witness :
    connectAll wireState = .ok wireState1 ∧
    (getDef wireState1 0).inp =
      ((getDef wireState 0).provider.args).map (resolveD wireState) ∧
    0 ∈ (getDef wireState1 1).out := by
  have hc : connectAll wireState = .ok wireState1 := rfl
  have h := wiring_bidirectional_edges.1 wireState wireState1 rfl rfl
    (by
      intro i hi
      have h2 : i < 2 := hi
      interval_cases i <;> rfl) hc 0 (by decide)
  have hin : (1 : Nat) ∈ (getDef wireState1 0).inp := by
    rw [h.1]
    decide
  exact ⟨hc, h.1, h.2.2 1 hin⟩

/-! ### Cycle-detection lemmas (towards C4) -/

theorem getD_oob {α : Type} : ∀ (l : List α) (i : Nat) (d : α),
    l.length ≤ i → l.getD i d = d := by
  intro l
  induction l with
  | nil => intro i d _; simp
  | cons x rest ih =>
      intro i d h
      cases i with
      | zero => simp at h
      | succ n => exact ih n d (by simpa using h)

theorem getDef_oob (s : definitions) (i : Nat) (h : s.defs.length ≤ i) :
    getDef s i = dfltDefinition :=
  getD_oob _ _ _ h

/-- The fields of a definition that traversal never touches. -/
def vstatOf (d : definition) :
    Inject.key × providerWrapper × List Inject.key × List Nat × List Nat ×
      Option Nat × Nat :=
  (d.key, d.provider, d.implements, d.inp, d.out, d.inst, d.calls)

/-- State agreement on everything traversal leaves alone. -/
def Vstat (s s' : definitions) : Prop :=
  s'.keys = s.keys ∧ s'.defmap = s.defmap ∧ s'.impls = s.impls ∧
  s'.defs.length = s.defs.length ∧ ∀ d, vstatOf (getDef s' d) = vstatOf (getDef s d)

theorem Vstat_refl (s : definitions) : Vstat s s :=
  ⟨rfl, rfl, rfl, rfl, fun _ => rfl⟩

theorem Vstat_trans {s1 s2 s3 : definitions} (h1 : Vstat s1 s2) (h2 : Vstat s2 s3) :
    Vstat s1 s3 :=
  ⟨h2.1.trans h1.1, h2.2.1.trans h1.2.1, h2.2.2.1.trans h1.2.2.1,
   h2.2.2.2.1.trans h1.2.2.2.1, fun d => (h2.2.2.2.2 d).trans (h1.2.2.2.2 d)⟩

theorem Vstat_updDef_visited (s : definitions) (i m : Nat) :
    Vstat s (updDef s i (fun d0 => { d0 with visited := m })) := by
  refine ⟨rfl, rfl, rfl, by simp [updDef], fun d => ?_⟩
  by_cases hd : i = d
  · subst hd
    by_cases hi : i < s.defs.length
    · rw [getDef_updDef_self s i _ hi]
      rfl
    · rw [getDef_updDef_oob s i _ (by omega)]
  · rw [getDef_updDef_ne s i d _ hd]

theorem Vstat_out {s s' : definitions} (h : Vstat s s') (d : Nat) :
    (getDef s' d).out = (getDef s d).out :=
  congrArg (fun t => t.2.2.2.2.1) (h.2.2.2.2 d)

/-- Traversal only writes marks: every other part of the state survives. -/
theorem visit_static (fuel : Nat) :
    (∀ s i s', visitDef fuel s i = .ok s' → Vstat s s') ∧
    (∀ l s s', visitFold (visitDef fuel) s l = .ok s' → Vstat s s') := by
  induction fuel with
  | zero =>
      constructor
      · intro s i s' h
        exact absurd h (by simp [visitDef])
      · intro l s s' h
        cases l with
        | nil =>
            simp only [visitFold] at h
            cases h
            exact Vstat_refl s
        | cons j rest => simp [visitFold, visitDef] at h
  | succ fuel ih =>
      have hdef : ∀ s i s', visitDef (fuel + 1) s i = .ok s' → Vstat s s' := by
        intro s i s' h
        simp only [visitDef] at h
        split at h
        · cases h
          exact Vstat_refl s
        · split at h
          · simp at h
          · split at h
            · simp at h
            · simp at h
            · rename_i s2 hfold
              cases h
              exact Vstat_trans (Vstat_updDef_visited s i visitMarkTemporary)
                (Vstat_trans (ih.2 _ _ _ hfold) (Vstat_updDef_visited s2 i visitMarkPermanent))
      refine ⟨hdef, ?_⟩
      intro l
      induction l with
      | nil =>
          intro s s' h
          simp only [visitFold] at h
          cases h
          exact Vstat_refl s
      | cons j rest ihl =>
          intro s s' h
          simp only [visitFold] at h
          split at h
          · simp at h
          · simp at h
          · rename_i s1 hj
            exact Vstat_trans (hdef _ _ _ hj) (ihl _ _ h)

/-- Traversal never panics. -/
theorem visit_nopanic (fuel : Nat) :
    (∀ s i m, visitDef fuel s i ≠ .panicked m) ∧
    (∀ l s m, visitFold (visitDef fuel) s l ≠ .panicked m) := by
  induction fuel with
  | zero =>
      constructor
      · intro s i m h
        simp [visitDef] at h
      · intro l s m h
        cases l with
        | nil => simp [visitFold] at h
        | cons j rest => simp [visitFold, visitDef] at h
  | succ fuel ih =>
      have hdef : ∀ s i m, visitDef (fuel + 1) s i ≠ .panicked m := by
        intro s i m h
        simp only [visitDef] at h
        split at h
        · simp at h
        · split at h
          · simp at h
          · split at h
            · simp at h
            · rename_i m0 hfold
              exact ih.2 _ _ _ hfold
            · simp at h
      refine ⟨hdef, ?_⟩
      intro l
      induction l with
      | nil =>
          intro s m h
          simp [visitFold] at h
      | cons j rest ihl =>
          intro s m h
          simp only [visitFold] at h
          split at h
          · simp at h
          · rename_i m0 hj
            cases h
            exact absurd hj (hdef _ _ _)
          · exact ihl _ _ h

/-- Mark evolution along a successful traversal: done and in-progress marks
are stable, no new in-progress or unmarked marks appear, and a visited
in-range node ends done. -/
theorem visit_marks (fuel : Nat) :
    (∀ s i s', visitDef fuel s i = .ok s' →
      (∀ d, (getDef s d).visited = visitMarkPermanent →
        (getDef s' d).visited = visitMarkPermanent) ∧
      (∀ d, (getDef s d).visited = visitMarkTemporary →
        (getDef s' d).visited = visitMarkTemporary) ∧
      (∀ d, (getDef s' d).visited = visitMarkTemporary →
        (getDef s d).visited = visitMarkTemporary) ∧
      (∀ d, (getDef s' d).visited = visitMarkUnmarked →
        (getDef s d).visited = visitMarkUnmarked) ∧
      (i < s.defs.length → (getDef s' i).visited = visitMarkPermanent) ∧
      (∀ d, (getDef s' d).visited = (getDef s d).visited ∨
        (getDef s' d).visited = visitMarkTemporary ∨
        (getDef s' d).visited = visitMarkPermanent)) ∧
    (∀ l s s', visitFold (visitDef fuel) s l = .ok s' →
      (∀ d, (getDef s d).visited = visitMarkPermanent →
        (getDef s' d).visited = visitMarkPermanent) ∧
      (∀ d, (getDef s d).visited = visitMarkTemporary →
        (getDef s' d).visited = visitMarkTemporary) ∧
      (∀ d, (getDef s' d).visited = visitMarkTemporary →
        (getDef s d).visited = visitMarkTemporary) ∧
      (∀ d, (getDef s' d).visited = visitMarkUnmarked →
        (getDef s d).visited = visitMarkUnmarked) ∧
      (∀ j, j ∈ l → j < s.defs.length →
        (getDef s' j).visited = visitMarkPermanent) ∧
      (∀ d, (getDef s' d).visited = (getDef s d).visited ∨
        (getDef s' d).visited = visitMarkTemporary ∨
        (getDef s' d).visited = visitMarkPermanent)) := by
  induction fuel with
  | zero =>
      constructor
      · intro s i s' h
        exact absurd h (by simp [visitDef])
      · intro l s s' h
        cases l with
        | nil =>
            simp only [visitFold] at h
            cases h
            exact ⟨fun d hd => hd, fun d hd => hd, fun d hd => hd, fun d hd => hd,
              fun j hj => by simp at hj, fun d => Or.inl rfl⟩
        | cons j rest => simp [visitFold, visitDef] at h
  | succ fuel ih =>
      have hdef : ∀ s i s', visitDef (fuel + 1) s i = .ok s' →
          (∀ d, (getDef s d).visited = visitMarkPermanent →
            (getDef s' d).visited = visitMarkPermanent) ∧
          (∀ d, (getDef s d).visited = visitMarkTemporary →
            (getDef s' d).visited = visitMarkTemporary) ∧
          (∀ d, (getDef s' d).visited = visitMarkTemporary →
            (getDef s d).visited = visitMarkTemporary) ∧
          (∀ d, (getDef s' d).visited = visitMarkUnmarked →
            (getDef s d).visited = visitMarkUnmarked) ∧
          (i < s.defs.length → (getDef s' i).visited = visitMarkPermanent) ∧
          (∀ d, (getDef s' d).visited = (getDef s d).visited ∨
            (getDef s' d).visited = visitMarkTemporary ∨
            (getDef s' d).visited = visitMarkPermanent) := by
        intro s i s' h
        simp only [visitDef] at h
        split at h
        · rename_i hperm
          cases h
          exact ⟨fun d hd => hd, fun d hd => hd, fun d hd => hd, fun d hd => hd,
            fun _ => hperm, fun d => Or.inl rfl⟩
        · rename_i hnoperm
          split at h
          · simp at h
          · rename_i hnotemp
            split at h
            · simp at h
            · simp at h
            · rename_i s2 hfold
              cases h
              obtain ⟨f1, f2, f3, f4, _, f6⟩ := ih.2 _ _ _ hfold
              have hlen1 : (updDef s i (fun d0 =>
                  { d0 with visited := visitMarkTemporary })).defs.length
                  = s.defs.length := by simp [updDef]
              have hlen2 : s2.defs.length = s.defs.length := by
                have := ((visit_static fuel).2 _ _ _ hfold).2.2.2.1
                rw [this, hlen1]
              have hself : ∀ d, d ≠ i →
                  getDef (updDef s i (fun d0 =>
                    { d0 with visited := visitMarkTemporary })) d = getDef s d := by
                intro d hd
                exact getDef_updDef_ne s i d _ (fun hh => hd hh.symm)
              refine ⟨?_, ?_, ?_, ?_, ?_, ?_⟩
              · intro d hd
                have hdi : d ≠ i := fun he => hnoperm (he ▸ hd)
                rw [getDef_updDef_ne s2 i d _ (fun hh => hdi hh.symm)]
                apply f1
                rw [hself d hdi]
                exact hd
              · intro d hd
                have hdi : d ≠ i := fun he => hnotemp (he ▸ hd)
                rw [getDef_updDef_ne s2 i d _ (fun hh => hdi hh.symm)]
                apply f2
                rw [hself d hdi]
                exact hd
              · intro d hd
                by_cases hdi : d = i
                · subst hdi
                  by_cases hin : d < s.defs.length
                  · rw [getDef_updDef_self s2 d _ (by omega)] at hd
                    simp [visitMarkTemporary, visitMarkPermanent] at hd
                  · rw [getDef_updDef_oob s2 d _ (by omega)] at hd
                    have h2 := f3 d hd
                    rw [getDef_updDef_oob s d _ (by omega)] at h2
                    exact h2
                · rw [getDef_updDef_ne s2 i d _ (fun hh => hdi hh.symm)] at hd
                  have h2 := f3 d hd
                  rw [hself d hdi] at h2
                  exact h2
              · intro d hd
                by_cases hdi : d = i
                · subst hdi
                  by_cases hin : d < s.defs.length
                  · rw [getDef_updDef_self s2 d _ (by omega)] at hd
                    simp [visitMarkUnmarked, visitMarkPermanent] at hd
                  · rw [getDef_updDef_oob s2 d _ (by omega)] at hd
                    have h2 := f4 d hd
                    rw [getDef_updDef_oob s d _ (by omega)] at h2
                    exact h2
                · rw [getDef_updDef_ne s2 i d _ (fun hh => hdi hh.symm)] at hd
                  have h2 := f4 d hd
                  rw [hself d hdi] at h2
                  exact h2
              · intro hin
                rw [getDef_updDef_self s2 i _ (by omega)]
              · intro d
                by_cases hdi : d = i
                · subst hdi
                  by_cases hin : d < s.defs.length
                  · right
                    right
                    rw [getDef_updDef_self s2 d _ (by omega)]
                  · rw [getDef_updDef_oob s2 d _ (by omega)]
                    rcases f6 d with h6 | h6 | h6
                    · left
                      rw [h6, getDef_updDef_oob s d _ (by omega)]
                    · right
                      left
                      exact h6
                    · right
                      right
                      exact h6
                · rw [getDef_updDef_ne s2 i d _ (fun hh => hdi hh.symm)]
                  rcases f6 d with h6 | h6 | h6
                  · left
                    rw [h6, hself d hdi]
                  · right
                    left
                    exact h6
                  · right
                    right
                    exact h6
      refine ⟨hdef, ?_⟩
      intro l
      induction l with
      | nil =>
          intro s s' h
          simp only [visitFold] at h
          cases h
          exact ⟨fun d hd => hd, fun d hd => hd, fun d hd => hd, fun d hd => hd,
            fun j hj => by simp at hj, fun d => Or.inl rfl⟩
      | cons c rest ihl =>
          intro s s' h
          simp only [visitFold] at h
          split at h
          · simp at h
          · simp at h
          · rename_i s1 hc
            obtain ⟨g1, g2, g3, g4, g5, g6⟩ := hdef _ _ _ hc
            obtain ⟨r1, r2, r3, r4, r5, r6⟩ := ihl _ _ h
            have hlen1 : s1.defs.length = s.defs.length :=
              ((visit_static (fuel + 1)).1 _ _ _ hc).2.2.2.1
            refine ⟨fun d hd => r1 d (g1 d hd), fun d hd => r2 d (g2 d hd),
              fun d hd => g3 d (r3 d hd), fun d hd => g4 d (r4 d hd), ?_, ?_⟩
            · intro j hj hjlen
              rcases List.mem_cons.mp hj with he | hm
              · subst he
                exact r1 j (g5 hjlen)
              · exact r5 j hm (by omega)
            · intro d
              rcases r6 d with h6 | h6 | h6
              · rw [h6]
                exact g6 d
              · right
                left
                exact h6
              · right
                right
                exact h6

theorem PathE_snoc {E : Nat → List Nat} {a b c : Nat}
    (hp : PathE E a b) (hc : c ∈ E b) : PathE E a c := by
  induction hp with
  | edge h => exact PathE.cons h (PathE.edge hc)
  | cons h _ ih => exact PathE.cons h (ih hc)

/-- Soundness of the traversal: a failure is either fuel exhaustion or the
cycle report, and the cycle report is only produced when the graph really
has a cycle.  The stack hypothesis: every in-progress node has a path to the
node being visited. -/
theorem visit_sound (fuel : Nat) :
    (∀ s i e (E : Nat → List Nat), (∀ j, (getDef s j).out = E j) →
      (∀ j, (getDef s j).visited = visitMarkTemporary → PathE E j i) →
      visitDef fuel s i = .fail e →
      e = outOfFuel ∨ (e = cycleDetectedMsg ∧ ∃ z, PathE E z z)) ∧
    (∀ l s e (E : Nat → List Nat), (∀ j, (getDef s j).out = E j) →
      (∀ j, (getDef s j).visited = visitMarkTemporary → ∀ c, c ∈ l → PathE E j c) →
      visitFold (visitDef fuel) s l = .fail e →
      e = outOfFuel ∨ (e = cycleDetectedMsg ∧ ∃ z, PathE E z z)) := by
  induction fuel with
  | zero =>
      constructor
      · intro s i e E _ _ h
        simp only [visitDef] at h
        cases h
        exact Or.inl rfl
      · intro l s e E _ _ h
        cases l with
        | nil => simp [visitFold] at h
        | cons j rest =>
            simp only [visitFold, visitDef] at h
            cases h
            exact Or.inl rfl
  | succ fuel ih =>
      have hdef : ∀ s i e (E : Nat → List Nat), (∀ j, (getDef s j).out = E j) →
          (∀ j, (getDef s j).visited = visitMarkTemporary → PathE E j i) →
          visitDef (fuel + 1) s i = .fail e →
          e = outOfFuel ∨ (e = cycleDetectedMsg ∧ ∃ z, PathE E z z) := by
        intro s i e E hE hstack h
        simp only [visitDef] at h
        split at h
        · simp at h
        · rename_i hnoperm
          split at h
          · rename_i htemp
            cases h
            exact Or.inr ⟨rfl, i, hstack i htemp⟩
          · rename_i hnotemp
            split at h
            · rename_i e0 hfold
              cases h
              set s1 := updDef s i (fun d0 =>
                { d0 with visited := visitMarkTemporary }) with hs1
              have hE1 : ∀ j, (getDef s1 j).out = E j := by
                intro j
                by_cases hj : i = j
                · subst hj
                  by_cases hin : i < s.defs.length
                  · rw [hs1, getDef_updDef_self s i _ hin]
                    exact hE i
                  · rw [hs1, getDef_updDef_oob s i _ (by omega)]
                    exact hE i
                · rw [hs1, getDef_updDef_ne s i j _ hj]
                  exact hE j
              have hlist : (getDef s1 i).out = E i := hE1 i
              apply ih.2 _ s1 _ E hE1 _ hfold
              intro j hj c hc
              rw [hlist] at hc
              by_cases hji : j = i
              · subst hji
                exact PathE.edge hc
              · have hjs : (getDef s j).visited = visitMarkTemporary := by
                  rw [hs1, getDef_updDef_ne s i j _ (fun hh => hji hh.symm)] at hj
                  exact hj
                exact PathE_snoc (hstack j hjs) hc
            · simp at h
            · simp at h
      refine ⟨hdef, ?_⟩
      intro l
      induction l with
      | nil =>
          intro s e E _ _ h
          simp [visitFold] at h
      | cons c rest ihl =>
          intro s e E hE hstack h
          simp only [visitFold] at h
          split at h
          · rename_i e0 hc
            cases h
            exact hdef s c e E hE
              (fun j hj => hstack j hj c (List.mem_cons_self c rest)) hc
          · simp at h
          · rename_i s1 hc
            have hstat : Vstat s s1 := (visit_static (fuel + 1)).1 _ _ _ hc
            have hE1 : ∀ j, (getDef s1 j).out = E j := by
              intro j
              rw [Vstat_out hstat j]
              exact hE j
            obtain ⟨_, _, f3, _, _, _⟩ := (visit_marks (fuel + 1)).1 _ _ _ hc
            apply ihl s1 e E hE1 _ h
            intro j hj c0 hc0
            exact hstack j (f3 j hj) c0 (List.mem_cons_of_mem c hc0)

/-- The completeness invariant: every done node has done successors and lies
on no cycle. -/
def InvE (E : Nat → List Nat) (s : definitions) : Prop :=
  ∀ j, (getDef s j).visited = visitMarkPermanent →
    (∀ c, c ∈ E j → (getDef s c).visited = visitMarkPermanent) ∧ ¬ PathE E j j

theorem InvE_closure {E : Nat → List Nat} {s : definitions} (hinv : InvE E s) :
    ∀ {j d : Nat}, PathE E j d →
      (getDef s j).visited = visitMarkPermanent →
      (getDef s d).visited = visitMarkPermanent := by
  intro j d hp
  induction hp with
  | edge h => exact fun hj => (hinv _ hj).1 _ h
  | cons h _ ih => exact fun hj => ih ((hinv _ hj).1 _ h)

/-- Completeness invariant preservation: a successful traversal keeps the
invariant, over an edge structure whose targets are in range. -/
theorem visit_complete (fuel : Nat) :
    (∀ s i s' (E : Nat → List Nat), (∀ j, (getDef s j).out = E j) →
      (∀ j c, c ∈ E j → c < s.defs.length) → i < s.defs.length →
      InvE E s → visitDef fuel s i = .ok s' → InvE E s') ∧
    (∀ l s s' (E : Nat → List Nat), (∀ j, (getDef s j).out = E j) →
      (∀ j c, c ∈ E j → c < s.defs.length) → (∀ j, j ∈ l → j < s.defs.length) →
      InvE E s → visitFold (visitDef fuel) s l = .ok s' → InvE E s') := by
  induction fuel with
  | zero =>
      constructor
      · intro s i s' E _ _ _ _ h
        exact absurd h (by simp [visitDef])
      · intro l s s' E _ _ _ hinv h
        cases l with
        | nil =>
            simp only [visitFold] at h
            cases h
            exact hinv
        | cons j rest => simp [visitFold, visitDef] at h
  | succ fuel ih =>
      have hdef : ∀ s i s' (E : Nat → List Nat), (∀ j, (getDef s j).out = E j) →
          (∀ j c, c ∈ E j → c < s.defs.length) → i < s.defs.length →
          InvE E s → visitDef (fuel + 1) s i = .ok s' → InvE E s' := by
        intro s i s' E hE hEb hilen hinv h
        simp only [visitDef] at h
        split at h
        · cases h
          exact hinv
        · rename_i hnoperm
          split at h
          · simp at h
          · rename_i hnotemp
            split at h
            · simp at h
            · simp at h
            · rename_i s2 hfold
              cases h
              set s1 := updDef s i (fun d0 =>
                { d0 with visited := visitMarkTemporary }) with hs1
              have hlen1 : s1.defs.length = s.defs.length := by
                rw [hs1]
                simp [updDef]
              have hg1 : ∀ d, d ≠ i → getDef s1 d = getDef s d := by
                intro d hd
                rw [hs1, getDef_updDef_ne s i d _ (fun hh => hd hh.symm)]
              have hg1i : getDef s1 i = { getDef s i with visited := visitMarkTemporary } := by
                rw [hs1, getDef_updDef_self s i _ hilen]
              have hE1 : ∀ j, (getDef s1 j).out = E j := by
                intro j
                by_cases hj : j = i
                · subst hj
                  rw [hg1i]
                  exact hE j
                · rw [hg1 j hj]
                  exact hE j
              have hinv1 : InvE E s1 := by
                intro j hj
                by_cases hji : j = i
                · subst hji
                  rw [hg1i] at hj
                  simp [visitMarkTemporary, visitMarkPermanent] at hj
                · rw [hg1 j hji] at hj
                  obtain ⟨hch, hcy⟩ := hinv j hj
                  refine ⟨?_, hcy⟩
                  intro c hc
                  have hci : c ≠ i := by
                    intro he
                    subst he
                    exact hnoperm (hch c hc)
                  rw [hg1 c hci]
                  exact hch c hc
              have hlist : (getDef s1 i).out = E i := hE1 i
              have hinv2 : InvE E s2 := by
                apply ih.2 (getDef s1 i).out s1 s2 E hE1 _ _ hinv1 hfold
                · intro j c hc
                  rw [hlen1]
                  exact hEb j c hc
                · intro j hj
                  rw [hlen1]
                  rw [hlist] at hj
                  exact hEb i j hj
              have hlen2 : s2.defs.length = s.defs.length := by
                have := ((visit_static fuel).2 _ _ _ hfold).2.2.2.1
                rw [this, hlen1]
              obtain ⟨_, m2, _, _, _, _⟩ := (visit_marks fuel).2 _ _ _ hfold
              have htempi : (getDef s2 i).visited = visitMarkTemporary := by
                apply m2
                rw [hg1i]
              have hchperm : ∀ c, c ∈ E i →
                  (getDef s2 c).visited = visitMarkPermanent := by
                intro c hc
                obtain ⟨_, _, _, _, m5, _⟩ := (visit_marks fuel).2 _ _ _ hfold
                apply m5 c
                · rw [hlist]
                  exact hc
                · rw [hlen1]
                  exact hEb i c hc
              intro j hj
              by_cases hji : j = i
              · subst hji
                constructor
                · intro c hc
                  by_cases hci : c = j
                  · subst hci
                    rw [getDef_updDef_self s2 c _ (by omega)]
                  · rw [getDef_updDef_ne s2 j c _ (fun hh => hci hh.symm)]
                    exact hchperm c hc
                · intro hp
                  cases hp with
                  | edge hmem =>
                      have := hchperm j hmem
                      rw [htempi] at this
                      simp [visitMarkTemporary, visitMarkPermanent] at this
                  | cons hmem hq =>
                      rename_i c
                      have hc2 : (getDef s2 c).visited = visitMarkPermanent :=
                        hchperm c hmem
                      have := InvE_closure hinv2 hq hc2
                      rw [htempi] at this
                      simp [visitMarkTemporary, visitMarkPermanent] at this
              · have hj2 : (getDef s2 j).visited = visitMarkPermanent := by
                  rw [getDef_updDef_ne s2 i j _ (fun hh => hji hh.symm)] at hj
                  exact hj
                obtain ⟨hch, hcy⟩ := hinv2 j hj2
                refine ⟨?_, hcy⟩
                intro c hc
                by_cases hci : c = i
                · subst hci
                  rw [getDef_updDef_self s2 c _ (by omega)]
                · rw [getDef_updDef_ne s2 i c _ (fun hh => hci hh.symm)]
                  exact hch c hc
      refine ⟨hdef, ?_⟩
      intro l
      induction l with
      | nil =>
          intro s s' E _ _ _ hinv h
          simp only [visitFold] at h
          cases h
          exact hinv
      | cons c rest ihl =>
          intro s s' E hE hEb hl hinv h
          simp only [visitFold] at h
          split at h
          · simp at h
          · simp at h
          · rename_i s1 hc
            have hstat : Vstat s s1 := (visit_static (fuel + 1)).1 _ _ _ hc
            have hinv1 : InvE E s1 :=
              hdef s c s1 E hE hEb (hl c (List.mem_cons_self c rest)) hinv hc
            apply ihl s1 s' E _ _ _ hinv1 h
            · intro j
              rw [Vstat_out hstat j]
              exact hE j
            · intro j c0 hc0
              rw [hstat.2.2.2.1]
              exact hEb j c0 hc0
            · intro j hj
              rw [hstat.2.2.2.1]
              exact hl j (List.mem_cons_of_mem c hj)

theorem mem_getD {α : Type} : ∀ (l : List α) (i : Nat) (d : α),
    i < l.length → l.getD i d ∈ l := by
  intro l
  induction l with
  | nil => intro i d h; simp at h
  | cons x rest ih =>
      intro i d h
      cases i with
      | zero => exact List.mem_cons_self x rest
      | succ n => exact List.mem_cons_of_mem x (ih n d (by simpa using h))

theorem mem_exists_getD {α : Type} : ∀ (l : List α) (d x : α),
    x ∈ l → ∃ i, i < l.length ∧ l.getD i d = x := by
  intro l
  induction l with
  | nil => intro d x h; simp at h
  | cons y rest ih =>
      intro d x h
      rcases List.mem_cons.mp h with he | hm
      · exact ⟨0, by simp, he.symm⟩
      · obtain ⟨i, hi, hgd⟩ := ih d x hm
        exact ⟨i + 1, by simpa using hi, hgd⟩

theorem outBounded_iff (s : definitions) : outBounded s = true ↔
    ∀ j, j < s.defs.length → ∀ c, c ∈ (getDef s j).out → c < s.defs.length := by
  simp only [outBounded, List.all_eq_true, decide_eq_true_eq]
  constructor
  · intro h j hj c hc
    exact h (getDef s j) (mem_getD _ _ _ hj) c hc
  · intro h d hd c hc
    obtain ⟨i, hi, hgd⟩ := mem_exists_getD s.defs dfltDefinition d hd
    exact h i hi c (by rw [getDef, hgd]; exact hc)

theorem allUnmarked_spec (s : definitions) (h : allUnmarkedB s = true) :
    ∀ j, j < s.defs.length → (getDef s j).visited = visitMarkUnmarked := by
  simp only [allUnmarkedB, List.all_eq_true, beq_iff_eq] at h
  intro j hj
  exact h (getDef s j) (mem_getD _ _ _ hj)

theorem outBounded_of {s s' : definitions} (h : outBounded s = true)
    (hout : ∀ j, (getDef s' j).out = (getDef s j).out)
    (hlen : s'.defs.length = s.defs.length) : outBounded s' = true := by
  rw [outBounded_iff] at h ⊢
  intro j hj c hc
  rw [hout j] at hc
  rw [hlen] at hj ⊢
  exact h j hj c hc

theorem out_updDef_mark (s : definitions) (i m : Nat) :
    ∀ j, (getDef (updDef s i (fun d0 => { d0 with visited := m })) j).out
      = (getDef s j).out := by
  intro j
  by_cases hj : i = j
  · subst hj
    by_cases hin : i < s.defs.length
    · rw [getDef_updDef_self s i _ hin]
    · rw [getDef_updDef_oob s i _ (by omega)]
  · rw [getDef_updDef_ne s i j _ hj]

/-- Nodes not yet entered by the traversal (neither in-progress nor done). -/
def notDoneB (d : definition) : Bool :=
  !(d.visited == visitMarkTemporary || d.visited == visitMarkPermanent)

def notDoneCount (s : definitions) : Nat :=
  ((List.range s.defs.length).filter (fun i => notDoneB (getDef s i))).length

theorem notDoneB_iff (d : definition) : notDoneB d = true ↔
    (d.visited ≠ visitMarkTemporary ∧ d.visited ≠ visitMarkPermanent) := by
  simp [notDoneB]

theorem filter_length_flip : ∀ (l : List Nat) (p q : Nat → Bool) (i : Nat),
    l.Nodup → i ∈ l → p i = true → q i = false → (∀ j, j ≠ i → q j = p j) →
    (l.filter q).length + 1 = (l.filter p).length := by
  intro l
  induction l with
  | nil => intro p q i _ hm; simp at hm
  | cons a rest ih =>
      intro p q i hnd hm hp hq hother
      have hna : a ∉ rest := (List.nodup_cons.mp hnd).1
      have hndr : rest.Nodup := (List.nodup_cons.mp hnd).2
      rcases List.mem_cons.mp hm with he | hmr
      · subst he
        have hfeq : rest.filter q = rest.filter p := by
          apply List.filter_congr
          intro j hj
          exact hother j (fun hh => hna (hh ▸ hj))
        simp only [List.filter_cons, hp, hq]
        simp [hfeq]
      · have hai : a ≠ i := fun hh => hna (hh ▸ hmr)
        have hqa : q a = p a := hother a hai
        have hrec := ih p q i hndr hmr hp hq hother
        simp only [List.filter_cons, hqa]
        cases hpa : p a
        · simpa [hpa] using hrec
        · simp [hpa]
          omega

theorem filter_length_le_pointwise : ∀ (l : List Nat) (p q : Nat → Bool),
    (∀ j, j ∈ l → q j = true → p j = true) →
    (l.filter q).length ≤ (l.filter p).length := by
  intro l
  induction l with
  | nil => intro p q _; simp
  | cons a rest ih =>
      intro p q h
      have hrec := ih p q (fun j hj => h j (List.mem_cons_of_mem a hj))
      simp only [List.filter_cons]
      cases hqa : q a with
      | true =>
          rw [h a (List.mem_cons_self a rest) hqa]
          simpa using hrec
      | false =>
          cases hpa : p a
          · simpa using hrec
          · simp
            omega

theorem notDoneCount_le (s : definitions) : notDoneCount s ≤ s.defs.length := by
  calc ((List.range s.defs.length).filter _).length
      ≤ (List.range s.defs.length).length := List.length_filter_le _ _
    _ = s.defs.length := List.length_range _

/-- Successful traversal never resurrects an unentered node. -/
theorem notDoneCount_mono {s s' : definitions}
    (hlen : s'.defs.length = s.defs.length)
    (hstab2 : ∀ d, (getDef s d).visited = visitMarkPermanent →
      (getDef s' d).visited = visitMarkPermanent)
    (hstab1 : ∀ d, (getDef s d).visited = visitMarkTemporary →
      (getDef s' d).visited = visitMarkTemporary) :
    notDoneCount s' ≤ notDoneCount s := by
  unfold notDoneCount
  rw [hlen]
  apply filter_length_le_pointwise
  intro j _ hq
  rw [notDoneB_iff] at hq ⊢
  constructor
  · intro h1
    exact hq.1 (hstab1 j h1)
  · intro h2
    exact hq.2 (hstab2 j h2)

/-- Fuel adequacy: with more fuel than unentered nodes, the traversal never
reports fuel exhaustion. -/
theorem visit_fuel (fuel : Nat) :
    (∀ s i, outBounded s = true → i < s.defs.length → notDoneCount s < fuel →
      visitDef fuel s i ≠ .fail outOfFuel) ∧
    (∀ l s, outBounded s = true → (∀ j, j ∈ l → j < s.defs.length) →
      notDoneCount s < fuel →
      visitFold (visitDef fuel) s l ≠ .fail outOfFuel) := by
  induction fuel with
  | zero =>
      constructor
      · intro s i _ _ hcnt
        omega
      · intro l s _ _ hcnt
        omega
  | succ fuel ih =>
      have hdef : ∀ s i, outBounded s = true → i < s.defs.length →
          notDoneCount s < fuel + 1 → visitDef (fuel + 1) s i ≠ .fail outOfFuel := by
        intro s i hob hilen hcnt h
        simp only [visitDef] at h
        split at h
        · simp at h
        · rename_i hnoperm
          split at h
          · rename_i htemp
            injection h with h'
            exact absurd h' (by decide)
          · rename_i hnotemp
            split at h
            · rename_i e0 hfold
              cases h
              set s1 := updDef s i (fun d0 =>
                { d0 with visited := visitMarkTemporary }) with hs1
              have hout1 : ∀ j, (getDef s1 j).out = (getDef s j).out :=
                out_updDef_mark s i visitMarkTemporary
              have hlen1 : s1.defs.length = s.defs.length := by
                rw [hs1]
                simp [updDef]
              have hob1 : outBounded s1 = true := outBounded_of hob hout1 hlen1
              have hflip : notDoneCount s1 + 1 = notDoneCount s := by
                unfold notDoneCount
                rw [hlen1]
                apply filter_length_flip _ _ _ i (List.nodup_range _)
                  (List.mem_range.mpr hilen)
                · rw [notDoneB_iff]
                  exact ⟨hnotemp, hnoperm⟩
                · have : getDef s1 i = { getDef s i with visited := visitMarkTemporary } := by
                    rw [hs1, getDef_updDef_self s i _ hilen]
                  rw [this]
                  simp [notDoneB, visitMarkTemporary]
                · intro j hj
                  rw [hs1, getDef_updDef_ne s i j _ (fun hh => hj hh.symm)]
              apply ih.2 ((getDef s1 i).out) s1 hob1 _ (by omega) hfold
              intro j hj
              rw [hlen1]
              rw [hout1 i] at hj
              exact (outBounded_iff s).mp hob i hilen j hj
            · simp at h
            · simp at h
      refine ⟨hdef, ?_⟩
      intro l
      induction l with
      | nil =>
          intro s _ _ _ h
          simp [visitFold] at h
      | cons c rest ihl =>
          intro s hob hl hcnt h
          simp only [visitFold] at h
          split at h
          · rename_i e0 hc
            cases h
            exact absurd hc (hdef s c hob (hl c (List.mem_cons_self c rest)) hcnt)
          · simp at h
          · rename_i s1 hc
            have hstat : Vstat s s1 := (visit_static (fuel + 1)).1 _ _ _ hc
            obtain ⟨m2, m1, _, _, _, _⟩ := (visit_marks (fuel + 1)).1 _ _ _ hc
            have hmono : notDoneCount s1 ≤ notDoneCount s :=
              notDoneCount_mono hstat.2.2.2.1 m2 m1
            apply ihl s1 _ _ (by omega) h
            · exact outBounded_of hob (Vstat_out hstat) hstat.2.2.2.1
            · intro j hj
              rw [hstat.2.2.2.1]
              exact hl j (List.mem_cons_of_mem c hj)

/-- Characterization of the cycle-verification loop: starting from a state
with no in-progress marks and no cycle through a done node, a successful
pass keeps the invariant, keeps done marks, and finishes every listed
definition; a failing pass reports exactly the wrapped cycle error and only
when the graph has a cycle; the loop never panics. -/
theorem verifyList_char : ∀ (l : List Nat) (s : definitions) (E : Nat → List Nat),
    (∀ j, (getDef s j).out = E j) → (∀ j c, c ∈ E j → c < s.defs.length) →
    outBounded s = true → (∀ j, j ∈ l → j < s.defs.length) →
    (∀ j, (getDef s j).visited ≠ visitMarkTemporary) →
    (∀ j, j < s.defs.length → (getDef s j).visited = visitMarkUnmarked ∨
      (getDef s j).visited = visitMarkPermanent) →
    InvE E s →
    (∀ s', verifyList s l = .ok s' →
      InvE E s' ∧
      (∀ d, (getDef s d).visited = visitMarkPermanent →
        (getDef s' d).visited = visitMarkPermanent) ∧
      (∀ j, j ∈ l → (getDef s' j).visited = visitMarkPermanent)) ∧
    (∀ e, verifyList s l = .fail e →
      e = wrapErr "detect cycle" cycleDetectedMsg ∧ ∃ z, PathE E z z) ∧
    (∀ m, verifyList s l ≠ .panicked m) := by
  intro l
  induction l with
  | nil =>
      intro s E _ _ _ _ _ _ hinv
      refine ⟨?_, ?_, ?_⟩
      · intro s' h
        simp only [verifyList] at h
        cases h
        exact ⟨hinv, fun d hd => hd, fun j hj => by simp at hj⟩
      · intro e h
        simp [verifyList] at h
      · intro m h
        simp [verifyList] at h
  | cons i rest ih =>
      intro s E hE hEb hob hl hnt hwf hinv
      by_cases hum : (getDef s i).visited = visitMarkUnmarked
      · cases hv : visitDef (s.defs.length + 1) s i with
        | fail e0 =>
            have hcnt : notDoneCount s < s.defs.length + 1 := by
              have := notDoneCount_le s
              omega
            have hsound := (visit_sound (s.defs.length + 1)).1 s i e0 E hE
              (fun j hj => absurd hj (hnt j)) hv
            have hnofuel := (visit_fuel (s.defs.length + 1)).1 s i hob
              (hl i (List.mem_cons_self i rest)) hcnt
            have he0 : e0 = cycleDetectedMsg ∧ ∃ z, PathE E z z := by
              rcases hsound with he | he
              · subst he
                exact absurd hv hnofuel
              · exact he
            refine ⟨?_, ?_, ?_⟩
            · intro s' h
              simp only [verifyList, if_pos hum, hv] at h
              simp at h
            · intro e h
              simp only [verifyList, if_pos hum, hv] at h
              cases h
              exact ⟨by rw [he0.1], he0.2⟩
            · intro m h
              simp only [verifyList, if_pos hum, hv] at h
              simp at h
        | panicked m0 =>
            exact absurd hv ((visit_nopanic _).1 s i m0)
        | ok s1 =>
            have hilen : i < s.defs.length := hl i (List.mem_cons_self i rest)
            have hstat : Vstat s s1 := (visit_static _).1 _ _ _ hv
            obtain ⟨m1, m2, m3, m4, m5, m6⟩ := (visit_marks _).1 _ _ _ hv
            have hE1 : ∀ j, (getDef s1 j).out = E j := by
              intro j
              rw [Vstat_out hstat j]
              exact hE j
            have hEb1 : ∀ j c, c ∈ E j → c < s1.defs.length := by
              intro j c hc
              rw [hstat.2.2.2.1]
              exact hEb j c hc
            have hob1 : outBounded s1 = true :=
              outBounded_of hob (Vstat_out hstat) hstat.2.2.2.1
            have hl1 : ∀ j, j ∈ rest → j < s1.defs.length := by
              intro j hj
              rw [hstat.2.2.2.1]
              exact hl j (List.mem_cons_of_mem i hj)
            have hnt1 : ∀ j, (getDef s1 j).visited ≠ visitMarkTemporary := by
              intro j hj
              exact hnt j (m3 j hj)
            have hwf1 : ∀ j, j < s1.defs.length →
                (getDef s1 j).visited = visitMarkUnmarked ∨
                (getDef s1 j).visited = visitMarkPermanent := by
              intro j hj
              rw [hstat.2.2.2.1] at hj
              rcases m6 j with h6 | h6 | h6
              · rw [h6]
                exact hwf j hj
              · exact absurd (m3 j h6) (hnt j)
              · exact Or.inr h6
            have hinv1 : InvE E s1 :=
              (visit_complete _).1 s i s1 E hE hEb hilen hinv hv
            obtain ⟨ihok, ihfail, ihpan⟩ :=
              ih s1 E hE1 hEb1 hob1 hl1 hnt1 hwf1 hinv1
            refine ⟨?_, ?_, ?_⟩
            · intro s' h
              simp only [verifyList, if_pos hum, hv] at h
              obtain ⟨hinv', hstab', hperm'⟩ := ihok s' h
              refine ⟨hinv', fun d hd => hstab' d (m1 d hd), ?_⟩
              intro j hj
              rcases List.mem_cons.mp hj with he | hm
              · subst he
                exact hstab' j (m5 hilen)
              · exact hperm' j hm
            · intro e h
              simp only [verifyList, if_pos hum, hv] at h
              exact ihfail e h
            · intro m h
              simp only [verifyList, if_pos hum, hv] at h
              exact ihpan m h
      · have hiperm : (getDef s i).visited = visitMarkPermanent := by
          rcases hwf i (hl i (List.mem_cons_self i rest)) with h0 | h2
          · exact absurd h0 hum
          · exact h2
        obtain ⟨ihok, ihfail, ihpan⟩ := ih s E hE hEb hob
          (fun j hj => hl j (List.mem_cons_of_mem i hj)) hnt hwf hinv
        refine ⟨?_, ?_, ?_⟩
        · intro s' h
          simp only [verifyList, if_neg hum] at h
          obtain ⟨hinv', hstab', hperm'⟩ := ihok s' h
          refine ⟨hinv', hstab', ?_⟩
          intro j hj
          rcases List.mem_cons.mp hj with he | hm
          · subst he
            exact hstab' j hiperm
          · exact hperm' j hm
        · intro e h
          simp only [verifyList, if_neg hum] at h
          exact ihfail e h
        · intro m h
          simp only [verifyList, if_neg hum] at h
          exact ihpan m h

/-! ### Claim C4: compilation fails with a cycle error iff the graph is cyclic -/

/-- Providers for the concrete instances: A consumes B, B consumes C, and C
consumes A (cyclic) or nothing (acyclic chain). -/
def cycOptA : providerOptions := ⟨some ⟨[⟨2, false⟩], [⟨1, false⟩], fun _ => (0, none)⟩, "", []⟩

def cycOptB : providerOptions := ⟨some ⟨[⟨3, false⟩], [⟨2, false⟩], fun _ => (0, none)⟩, "", []⟩

def cycOptC : providerOptions := ⟨some ⟨[⟨1, false⟩], [⟨3, false⟩], fun _ => (0, none)⟩, "", []⟩

def chainOptC : providerOptions := ⟨some ⟨[], [⟨3, false⟩], fun _ => (0, none)⟩, "", []⟩

/-- C4.  Over any wired storage (edges in range, iteration covering the
arena, all marks unmarked), the cycle-verification stage fails exactly when
the wired graph contains a cycle, and in that case its error is exactly the
wrapped "cycle detected" report produced by re-entering an in-progress node
of the three-mark depth-first traversal.  At the concrete instances:
providers A→B→C→A make `New` fail with the cycle-detection error, while the
acyclic chain A→B→C compiles. -/
theorem cycle_detection_iff :
    (∀ s, outBounded s = true → allIsRange s = true → allUnmarkedB s = true →
      (((verifyAll s).isFail = true) ↔ ∃ i, PathE (outE s) i i) ∧
      (∀ e, verifyAll s = .fail e → e = wrapErr "detect cycle" cycleDetectedMsg)) ∧
    New [.provideOpt cycOptA, .provideOpt cycOptB, .provideOpt cycOptC] =
      .fail (wrapErr "could not compile container"
        (wrapErr "detect cycle" cycleDetectedMsg)) ∧
    (New [.provideOpt cycOptA, .provideOpt cycOptB, .provideOpt chainOptC]).isOk
      = true := by
  refine ⟨?_, rfl, rfl⟩
  intro s hob hall hun
  have hrange : s.all = List.range s.defs.length := by
    simpa [allIsRange] using hall
  have hEb : ∀ j c, c ∈ outE s j → c < s.defs.length := by
    intro j c hc
    by_cases hj : j < s.defs.length
    · exact (outBounded_iff s).mp hob j hj c hc
    · rw [outE, getDef_oob s j (by omega)] at hc
      simp [dfltDefinition] at hc
  have hl : ∀ j, j ∈ s.all → j < s.defs.length := by
    intro j hj
    rw [hrange] at hj
    exact List.mem_range.mp hj
  have hnt : ∀ j, (getDef s j).visited ≠ visitMarkTemporary := by
    intro j
    by_cases hj : j < s.defs.length
    · rw [allUnmarked_spec s hun j hj]
      simp [visitMarkUnmarked, visitMarkTemporary]
    · rw [getDef_oob s j (by omega)]
      simp [dfltDefinition, visitMarkUnmarked, visitMarkTemporary]
  have hwf : ∀ j, j < s.defs.length → (getDef s j).visited = visitMarkUnmarked ∨
      (getDef s j).visited = visitMarkPermanent :=
    fun j hj => Or.inl (allUnmarked_spec s hun j hj)
  have hinv : InvE (outE s) s := by
    intro j hj
    exfalso
    by_cases hjl : j < s.defs.length
    · rw [allUnmarked_spec s hun j hjl] at hj
      simp [visitMarkUnmarked, visitMarkPermanent] at hj
    · rw [getDef_oob s j (by omega)] at hj
      simp [dfltDefinition, visitMarkUnmarked, visitMarkPermanent] at hj
  obtain ⟨chok, chfail, chpan⟩ := verifyList_char s.all s (outE s)
    (fun j => rfl) hEb hob hl hnt hwf hinv
  refine ⟨⟨?_, ?_⟩, ?_⟩
  · intro hf
    cases hveq : verifyAll s with
    | ok s' =>
        rw [hveq] at hf
        simp [Res.isFail] at hf
    | panicked m => exact absurd hveq (chpan m)
    | fail e =>
        obtain ⟨_, z, hz⟩ := chfail e hveq
        exact ⟨z, hz⟩
  · rintro ⟨z, hz⟩
    cases hveq : verifyAll s with
    | fail e => rfl
    | panicked m => exact absurd hveq (chpan m)
    | ok s' =>
        obtain ⟨hinv', _, hperm'⟩ := chok s' hveq
        have hzlen : z < s.defs.length := by
          by_contra hzl
          cases hz with
          | edge hmem =>
              rw [outE, getDef_oob s z (by omega)] at hmem
              simp [dfltDefinition] at hmem
          | cons hmem _ =>
              rw [outE, getDef_oob s z (by omega)] at hmem
              simp [dfltDefinition] at hmem
        have hzperm := hperm' z (by rw [hrange]; exact List.mem_range.mpr hzlen)
        exact absurd hz (hinv' z hzperm).2
  · intro e he
    exact (chfail e he).1

/-- A concrete wired three-node cycle 0 → 1 → 2 → 0 for the witness. -/
def cycDef (t : TypeRep) (o : List Nat) : definition :=
  { key := { typ := t },
    provider := { providerType := .func, providerValue := ⟨[], [t], fun _ => (0, none)⟩,
                  resultType := t },
    implements := [], out := o }

def cycVerifyState : definitions :=
  { keys := [{ typ := ⟨1, false⟩ }, { typ := ⟨2, false⟩ }, { typ := ⟨3, false⟩ }],
    defs := [cycDef ⟨1, false⟩ [1], cycDef ⟨2, false⟩ [2], cycDef ⟨3, false⟩ [0]],
    defmap := [({ typ := ⟨1, false⟩ }, 0), ({ typ := ⟨2, false⟩ }, 1),
      ({ typ := ⟨3, false⟩ }, 2)],
    impls := [] }

/-- C4 witness: the hypotheses hold at the concrete wired three-node state
and the equivalence applies to it. -/
theorem cycle_detection_iff_witness :
    outBounded cycVerifyState = true ∧ allIsRange cycVerifyState = true ∧
    allUnmarkedB cycVerifyState = true ∧
    ((verifyAll cycVerifyState).isFail = true ↔
      ∃ i, PathE (outE cycVerifyState) i i) :=
  ⟨rfl, rfl, rfl, (cycle_detection_iff.1 cycVerifyState rfl rfl rfl).1⟩

/-! ### Claim C5: modifier application (code bug: nil failure outcome) -/

/-- A modifier with a valid signature (single `error` output) whose
invocation returns a nil error interface — the normal success case. -/
def nilErrModifier : modifierOptions :=
  ⟨some ⟨true, [], [⟨100, true⟩], fun _ => none⟩⟩

/-- A modifier with a valid signature returning a non-nil error. -/
def errModifier : modifierOptions :=
  ⟨some ⟨true, [], [⟨100, true⟩], fun _ => some "boom"⟩⟩

/-- A modifier with no outputs. -/
def voidModifier : modifierOptions :=
  ⟨some ⟨true, [], [], fun _ => none⟩⟩

/-- A modifier with a non-error single output. -/
def badModifier : modifierOptions :=
  ⟨some ⟨true, [], [⟨5, false⟩], fun _ => none⟩⟩

/-- C5.  Evaluation of `apply` at the decisive inputs.  The claim's failure
branch holds: a valid one-output modifier returning a non-nil failure outcome
fails with the wrapped "apply error", and an output-arity-0 modifier
succeeds.  But the claim's success branch for an empty (nil) failure outcome
is falsified by the code: `result[0].Interface().(error)` type-asserts a nil
interface and panics, so a valid `func() error` modifier that returns nil —
the normal success case — panics instead of succeeding.  An invalid
signature is rejected as the spec says. -/
theorem modifier_nil_error_panics :
    applyMod emptyStorage nilErrModifier
        = .panicked "interface conversion: interface \x7b\x7d is nil, not error" ∧
    applyMod emptyStorage errModifier = .fail (wrapErr "apply error" "boom") ∧
    applyMod emptyStorage voidModifier = .ok emptyStorage ∧
    applyMod emptyStorage badModifier = .fail errIncorrectModifierSignature ∧
    applyMod emptyStorage ⟨none⟩ = .fail "nil modifier" :=
  ⟨rfl, rfl, rfl, rfl, rfl⟩

/-! ### Claim C6: Populate target validation (corrected: non-pointer panics) -/

/-- C6 counterexample.  The claim says `Populate` *returns an error*
whenever the target is not a settable reference to a value.  At the concrete
target "a non-pointer value of type 1" the code does not return an error: it
panics inside `reflect.Value.Elem`, because the source only checks for an
invalid value or a nil pointer before calling `Elem`. -/
theorem populate_nonpointer_panics :
    Populate emptyStorage (.nonPtr ⟨1, false⟩) []
        = .panicked "reflect: call of reflect.Value.Elem on non-pointer Value" ∧
    (Populate emptyStorage (.nonPtr ⟨1, false⟩) []).isFail = false ∧
    (Populate emptyStorage (.nonPtr ⟨1, false⟩) []).isOk = false :=
  ⟨rfl, rfl, rfl⟩

/-- C6 (amended).  `Populate` returns the "could not populate nil" error when
the target is absent (an invalid value) or a nil pointer, and in those cases
nothing is resolved or mutated; when the target is a non-nil non-pointer
value it panics in `reflect.Value.Elem` instead of returning an error; when
the target is a valid non-nil pointer, `Populate` resolves the pointee
type's identifier against storage (failing with the lookup's error if it is
unbound), obtains the instance — constructing it if necessary — and assigns
it through the pointer. -/
theorem populate_target_cases (s : definitions) (t : TypeRep)
    (opts : List ProvideOption) :
    Populate s .invalidValue opts = .fail "could not populate nil" ∧
    Populate s (.nilPtr t) opts = .fail "could not populate nil" ∧
    Populate s (.nonPtr t) opts
        = .panicked "reflect: call of reflect.Value.Elem on non-pointer Value" ∧
    (∀ e, s.get { typ := t } = .error e → Populate s (.ptr t) opts = .fail e) ∧
    (∀ i v s', s.get { typ := t } = .ok i →
      initDef (s.defs.length + 1) s i = .ok (v, s') →
      Populate s (.ptr t) opts = .ok (v, s')) := by
  refine ⟨rfl, rfl, rfl, ?_, ?_⟩
  · intro e he
    simp [Populate, he]
  · intro i v s' hi hinit
    simp [Populate, hi, hinit]

/-- C6 witness: at the empty storage, populating a pointer target of an
unbound type fails with the "not provided" lookup error. -/
theorem populate_target_cases_witness :
    Populate emptyStorage (.ptr ⟨1, false⟩) [] = .fail "type 1 not provided" :=
  (populate_target_cases emptyStorage ⟨1, false⟩ []).2.2.2.1
    "type 1 not provided" rfl

/-! ### Claim C8: construction is all-or-nothing (corrected: panic escape) -/

theorem foldl_applyOption_storage : ∀ (opts : List ContainerOption) (c : Container),
    (opts.foldl applyOption c).storage = c.storage := by
  intro opts
  induction opts with
  | nil => intro c; rfl
  | cons o rest ih =>
      intro c
      rw [List.foldl_cons, ih]
      cases o <;> rfl

theorem initialContainer_storage (opts : List ContainerOption) :
    (initialContainer opts).storage = emptyStorage :=
  foldl_applyOption_storage opts _

/-- C8 counterexample.  The claim says `New` returns either a compiled
container with no error or a nil container with a single error.  With a
single registered modifier of valid signature whose invocation returns a nil
failure outcome, `New` does neither: the modifier stage panics (nil-interface
type assertion, see the modifier-application bug), so no value is returned
at all. -/
theorem new_nil_modifier_counterexample :
    New [.modifierOpt nilErrModifier]
        = .panicked "interface conversion: interface \x7b\x7d is nil, not error" ∧
    (New [.modifierOpt nilErrModifier]).isOk = false ∧
    (New [.modifierOpt nilErrModifier]).isFail = false :=
  ⟨rfl, rfl, rfl⟩

/-- C8 (amended).  Except for the modifier-stage panic above, container
construction is all-or-nothing: the four stages run in order — provider
registration, wiring, cycle verification, modifier application — the first
failing stage determines `New`'s single returned error (wrapped as "could
not compile container"), no later stage runs, and only when all four stages
succeed does `New` return a container, carrying the fully compiled
storage. -/
theorem new_staged_pipeline :
    (∀ opts e, registerList emptyStorage (initialContainer opts).providers = .fail e →
      New opts = .fail (wrapErr "could not compile container" e)) ∧
    (∀ opts s1 e, registerList emptyStorage (initialContainer opts).providers = .ok s1 →
      connectAll s1 = .fail e →
      New opts = .fail (wrapErr "could not compile container" e)) ∧
    (∀ opts s1 s2 e, registerList emptyStorage (initialContainer opts).providers = .ok s1 →
      connectAll s1 = .ok s2 → verifyAll s2 = .fail e →
      New opts = .fail (wrapErr "could not compile container" e)) ∧
    (∀ opts s1 s2 s3 e, registerList emptyStorage (initialContainer opts).providers = .ok s1 →
      connectAll s1 = .ok s2 → verifyAll s2 = .ok s3 →
      applyList s3 (initialContainer opts).modifiers = .fail e →
      New opts = .fail (wrapErr "could not compile container" e)) ∧
    (∀ opts s1 s2 s3 s4, registerList emptyStorage (initialContainer opts).providers = .ok s1 →
      connectAll s1 = .ok s2 → verifyAll s2 = .ok s3 →
      applyList s3 (initialContainer opts).modifiers = .ok s4 →
      New opts = .ok { initialContainer opts with storage := s4 }) := by
  have hcomp : ∀ opts, (initialContainer opts).compile =
      match registerList emptyStorage (initialContainer opts).providers with
      | .fail e => .fail e
      | .panicked m => .panicked m
      | .ok s1 =>
          match connectAll s1 with
          | .fail e => .fail e
          | .panicked m => .panicked m
          | .ok s2 =>
              match verifyAll s2 with
              | .fail e => .fail e
              | .panicked m => .panicked m
              | .ok s3 => applyList s3 (initialContainer opts).modifiers := by
    intro opts
    rw [Container.compile, initialContainer_storage]
  refine ⟨?_, ?_, ?_, ?_, ?_⟩
  · intro opts e h
    rw [New, hcomp opts]
    simp only [h]
  · intro opts s1 e h1 h2
    rw [New, hcomp opts]
    simp only [h1, h2]
  · intro opts s1 s2 e h1 h2 h3
    rw [New, hcomp opts]
    simp only [h1, h2, h3]
  · intro opts s1 s2 s3 e h1 h2 h3 h4
    rw [New, hcomp opts]
    simp only [h1, h2, h3, h4]
  · intro opts s1 s2 s3 s4 h1 h2 h3 h4
    rw [New, hcomp opts]
    simp only [h1, h2, h3, h4]

def nilProviderOpt : providerOptions := ⟨none, "", []⟩

/-- C8 witness: with a nil provider registered, the registration stage fails
first and `New` returns exactly that wrapped error. -/
theorem new_staged_pipeline_witness :
    registerList emptyStorage (initialContainer [.provideOpt nilProviderOpt]).providers
        = .fail "could not provide nil" ∧
    New [.provideOpt nilProviderOpt]
        = .fail (wrapErr "could not compile container" "could not provide nil") :=
  ⟨rfl, new_staged_pipeline.1 [.provideOpt nilProviderOpt] "could not provide nil" rfl⟩

/-! ### Claim C10: Populate ignores its options -/

/-- C10.  `Populate`'s behaviour is independent of its variadic
`ProvideOption` arguments: on the same container state and target, any two
option lists give the same result and leave the same state (the options
parameter is never read by the source). -/
theorem populate_options_irrelevant (s : definitions) (target : PopulateTarget)
    (opts1 opts2 : List ProvideOption) :
    Populate s target opts1 = Populate s target opts2 := rfl

/-! ### Claim C7: provider-wrapper construction -/

/-- C7.  For every constructor value: wrapper construction fails with
`IncorrectProviderType` exactly when the output arity is not 1 or 2, or is 2
with a second output that does not implement `error`; on success the declared
result identifier is the type of output #1 and the declared argument
identifiers are the positional input types in order with no name qualifier;
and construction never invokes the constructor — the outcome, result type and
argument identifiers depend only on the signature, not on the function's
behaviour. -/
theorem func_provider_signature (p : funcValue) (g : List Nat → Nat × Option String) :
    (newFuncProvider p = .error ErrIncorrectProviderType ↔
      (p.outs.length ≠ 1 ∧ p.outs.length ≠ 2) ∨
        (p.outs.length = 2 ∧ (p.outs.getD 1 dfltTypeRep).isErr = false)) ∧
    (∀ w, newFuncProvider p = .ok w →
      w.resultType = p.outs.getD 0 dfltTypeRep ∧
      w.args = p.ins.map (fun t => { typ := t, name := "" }) ∧
      w.providerValue = p) ∧
    (∀ e, newFuncProvider p = .error e ↔
        newFuncProvider { ins := p.ins, outs := p.outs, fn := g } = .error e) ∧
    (∀ w w', newFuncProvider p = .ok w →
        newFuncProvider { ins := p.ins, outs := p.outs, fn := g } = .ok w' →
        w.resultType = w'.resultType ∧ w.args = w'.args) := by
  obtain ⟨ins, outs, fn⟩ := p
  by_cases h1 : outs.length ≤ 0 ∨ outs.length > 2
  · refine ⟨?_, ?_, ?_, ?_⟩
    · simp only [newFuncProvider, if_pos h1]
      refine ⟨fun _ => Or.inl ⟨?_, ?_⟩, fun _ => trivial⟩ <;> omega
    · intro w hw
      simp only [newFuncProvider, if_pos h1] at hw
      exact absurd hw (by simp)
    · intro e
      simp only [newFuncProvider, if_pos h1]
    · intro w w' hw _
      simp only [newFuncProvider, if_pos h1] at hw
      exact absurd hw (by simp)
  · by_cases h2 : outs.length = 2 ∧ (outs.getD 1 dfltTypeRep).isErr = false
    · refine ⟨?_, ?_, ?_, ?_⟩
      · simp only [newFuncProvider, if_neg h1, if_pos h2]
        exact ⟨fun _ => Or.inr h2, fun _ => trivial⟩
      · intro w hw
        simp only [newFuncProvider, if_neg h1, if_pos h2] at hw
        exact absurd hw (by simp)
      · intro e
        simp only [newFuncProvider, if_neg h1, if_pos h2]
      · intro w w' hw _
        simp only [newFuncProvider, if_neg h1, if_pos h2] at hw
        exact absurd hw (by simp)
    · refine ⟨?_, ?_, ?_, ?_⟩
      · simp only [newFuncProvider, if_neg h1, if_neg h2]
        constructor
        · intro h
          simp at h
        · intro h
          rcases h with ⟨ha, hb⟩ | hab
          · exfalso
            omega
          · exact absurd hab h2
      · intro w hw
        simp only [newFuncProvider, if_neg h1, if_neg h2] at hw
        cases hw
        exact ⟨rfl, rfl, rfl⟩
      · intro e
        simp only [newFuncProvider, if_neg h1, if_neg h2]
        simp
      · intro w w' hw hw'
        simp only [newFuncProvider, if_neg h1, if_neg h2] at hw hw'
        cases hw
        cases hw'
        exact ⟨rfl, rfl⟩

/-- A concrete constructor (one input of type 2, outputs of type 1 and an
error type) and its expected wrapper. -/
def sampleProvider : funcValue :=
  ⟨[⟨2, false⟩], [⟨1, false⟩, ⟨9, true⟩], fun _ => (0, none)⟩

def sampleWrapper : providerWrapper :=
  { providerType := .func, providerValue := sampleProvider,
    resultType := ⟨1, false⟩ }

/-- C7 witness: the concrete constructor with two outputs whose second
implements `error` is accepted; the wrapper exposes the first output as
result and the inputs as unqualified argument keys. -/
theorem func_provider_signature_witness :
    newFuncProvider sampleProvider = .ok sampleWrapper ∧
    sampleWrapper.resultType = ⟨1, false⟩ ∧
    sampleWrapper.args = [{ typ := ⟨2, false⟩, name := "" }] := by
  have h := (func_provider_signature sampleProvider (fun _ => (1, none))).2.1
    sampleWrapper rfl
  exact ⟨rfl, h.1.trans rfl, h.2.1.trans rfl⟩

end Inject
